import Mathlib

/-!
# Expander of the regex compiler (src/regex.c, src/lib/misc.c)

A shallow embedding of `gobble`, `expand`, `expand_parens` and `expand_bracket`, and of
`nfa_create` (src/lib/nfa.c).

Modelling conventions.

* A C string `(pattern, plen)` is the list of its `plen` characters; a C string holds
  no NUL among them.
* A function returning `-1` returns `none`; a function returning `0` returns `some` of
  what it wrote through its out-parameters.
* The expander is modelled at two levels. At the level of strings (`expand`,
  `expand_parens`, `expand_bracket`, `bracketLoop`) an output buffer is the list of the
  characters written into it so far: `ret` stands for the first `r` bytes of `*ret`,
  `subex` for the first `k` bytes of the scratch buffer of `expand_bracket`. Every buffer
  is zero-filled when it is allocated and from its write index on when it grows, and the
  writes are consecutive, so `strlen` of a buffer is the length of that list.
* At the level of buffers (`expand_cap`, `expand_parens_cap`, `expand_bracket_cap`,
  `bracketCap`) the same lists are paired with the capacities `rlen`, `subex_len` and
  `subret_len` of their blocks, with the growth tests of the source in `size_t`
  arithmetic, and every write and every `strlen` is checked against the capacity: an
  access outside the block ends the run as `Res.overrun`, from where the C run is
  undefined. `expand_cap_refines` relates the two levels: a run either leaves one of its
  blocks or returns what the string level returns. A statement about `expand` is
  therefore a statement about the runs that stay inside their blocks.
* `expandRun` is the scan loop again with the bound on its iterations reported apart
  from the return value `-1`; `subexLoop` and `expand_bracket_writes` list the write
  indices of `expand_bracket` into its scratch buffer together with its capacity.
* `nfa_create` is read as it is written: its fragments have the fields its body uses,
  and the stack library it calls, which is not among the sources, is a list.
* `depthRun`, `expandStep`, `bracketAlts`, `sepAlts` and `joinAlts` are not in the source:
  they are used to state lemmas about the loops.  `isOperator`, `literals`, `balanced`,
  `gobbleTarget`, `bracketsPaired` and `classesPlain` are the predicates in which the
  properties are stated.
-/

namespace Regex

/-! ## Definitions -/

/-- Scan loop of `gobble` (src/lib/misc.c, lines 8-24).  The list holds the characters
`pattern[i..plen)` that are still to be read, `i` is the loop index and `skip` the counter
of mask characters that have not been closed yet. -/
def gobbleLoop (m mr : Char) : List Char → Nat → Nat → Option Nat
  | [], _, _ => none
  | c :: rest, i, skip =>
    let skip1 := if mr ≠ '\x00' ∧ c = mr then skip + 1 else skip
    if c = m then
      if skip1 > 0 then gobbleLoop m mr rest (i + 1) (skip1 - 1)
      else some i
    else gobbleLoop m mr rest (i + 1) skip1

/-- The function `gobble` of src/lib/misc.c: the index written to `*j`, or `none` for
the return value `-1`.  The out-pointer `j` is never NULL at a call site. -/
def gobble (pattern : List Char) (i : Nat) (m mr : Char) : Option Nat :=
  if i ≥ pattern.length then none
  else gobbleLoop m mr (pattern.drop i) i 0

/-- Loop of `expand_bracket` (src/regex.c, lines 167-199).  The first list holds
`substring[q..n)`, the second one the `k` characters written to `subex` so far.
`rest.head? = some '-'` is the test `q+1 < n && substring[q+1] == '-'`; a range consumes
three characters (`q += 2` and the `q++` of the loop). -/
def bracketLoop : List Char → List Char → Option (List Char)
  | [], subex => some subex
  | c :: rest, subex =>
    let k := subex.length
    let subex1 := if k - 1 > 0 ∧ k - 1 < k then subex ++ ['|'] else subex
    if c.isDigit then
      if rest.head? = some '-' then
        match rest with
        | _ :: e :: rest3 =>
          if e.isDigit then bracketLoop rest3 (subex1 ++ [c, '-', e]) else none
        | _ => none
      else bracketLoop rest (subex1 ++ [c])
    else bracketLoop rest (subex1 ++ [c])

/-- The function `expand_bracket` of src/regex.c at the level of strings: the new
contents of `ret` and the index `j` of the closing bracket, in a run that stays inside the
blocks of `subex` and `*ret`. The allocation of `subex` with `n + 1` bytes and the growth
test of line 206 are in `expand_bracket_cap`; `expand_bracket_cap_agree` relates the
two. -/
def expand_bracket (pattern ret : List Char) (i : Nat) : Option (List Char × Nat) :=
  match gobble pattern (i + 1) ']' '\x00' with
  | none => none
  | some j =>
    let n := (j - i + 1) - 2
    let substring := (pattern.drop (i + 1)).take n
    match bracketLoop substring ['('] with
    | none => none
    | some subex => some (ret ++ (subex ++ [')']), j)

/-- Body of `expand_parens` (src/regex.c, lines 106-145) at the level of strings, with
the recursive call to `expand` on the substring taken as the parameter `expandSub`: what
`*ret` holds afterwards in a run that stays inside its blocks. The growth test of lines
126-130 is in `expand_parens_cap`; `expandCapLoop_agree` relates the two. -/
def expand_parens_with (expandSub : List Char → Option (List Char))
    (pattern ret : List Char) (i : Nat) : Option (List Char × Nat) :=
  match gobble pattern (i + 1) ')' '(' with
  | none => none
  | some j =>
    let n := (j - i + 1) - 2
    let substring := (pattern.drop (i + 1)).take n
    match expandSub substring with
    | none => none
    | some subret => some (ret ++ ['('] ++ subret ++ [')'], j)

/-- Scan loop of `expand` (src/regex.c, lines 61-97) at loop index `i` with `ret`
written so far.  The first argument bounds the number of loop iterations and nested
calls that are still allowed; `expandLoop_eq` shows that the bound chosen by `expand` is
never reached. -/
def expandLoop : Nat → List Char → Nat → List Char → Option (List Char)
  | 0, _, _, _ => none
  | fuel + 1, pattern, i, ret =>
    match pattern[i]? with
    | none => some ret
    | some c =>
      if c = '(' then
        match expand_parens_with (fun s => expandLoop fuel s 0 []) pattern ret i with
        | none => none
        | some (ret1, j) => expandLoop fuel pattern (j + 1) ret1
      else if c = '[' then
        match expand_bracket pattern ret i with
        | none => none
        | some (ret1, j) => expandLoop fuel pattern (j + 1) ret1
      else expandLoop fuel pattern (i + 1) (ret ++ [c])

/-- The function `expand` of src/regex.c at the level of strings: the expanded string
left in `*ret` by a run that stays inside its blocks, or `none` for the return value
`-1`. The same function with the capacities of its buffers is `expand_cap`. -/
def expand (pattern : List Char) : Option (List Char) :=
  expandLoop (pattern.length + 1) pattern 0 []

/-- The function `expand_parens` of src/regex.c at the level of strings. -/
def expand_parens (pattern ret : List Char) (i : Nat) : Option (List Char × Nat) :=
  expand_parens_with expand pattern ret i

/-- Nesting depth left after reading a string from depth `d`: `(` opens a level, `)`
closes one, and `none` means that a `)` was met at depth 0. -/
def depthRun : Nat → List Char → Option Nat
  | d, [] => some d
  | d, c :: cs =>
    if c = ')' then (if d > 0 then depthRun (d - 1) cs else none)
    else if c = '(' then depthRun (d + 1) cs
    else depthRun d cs

/-- One iteration of the scan loop of `expand`, read off the list `c :: q` of the
characters from the loop index on: what the loop appends to `ret` from there. -/
def expandStep (c : Char) (q ret : List Char) : Option (List Char) :=
  if c = '(' then
    match gobbleLoop ')' '(' q 0 0 with
    | none => none
    | some k =>
      (expand (q.take k)).bind fun es =>
        (expand (q.drop (k + 1))).map fun et => ret ++ ('(' :: es ++ ')' :: et)
  else if c = '[' then
    match gobbleLoop ']' '\x00' q 0 0 with
    | none => none
    | some k =>
      (bracketLoop (q.take k) ['(']).bind fun sub =>
        (expand (q.drop (k + 1))).map fun et => ret ++ (sub ++ ')' :: et)
  else (expand q).map fun e => ret ++ c :: e

/-- The alternatives that the loop of `expand_bracket` reads off a class body, in order:
a range `d-e` is one alternative, every other character is an alternative of its own. -/
def bracketAlts : List Char → Option (List (List Char))
  | [] => some []
  | c :: rest =>
    if c.isDigit then
      if rest.head? = some '-' then
        match rest with
        | _ :: e :: rest3 =>
          if e.isDigit then (bracketAlts rest3).map ([c, '-', e] :: ·) else none
        | _ => none
      else (bracketAlts rest).map ([c] :: ·)
    else (bracketAlts rest).map ([c] :: ·)

/-- Every alternative preceded by the separator `|`. -/
def sepAlts (ts : List (List Char)) : List Char :=
  (ts.map ('|' :: ·)).flatten

/-- The alternatives of a class separated by `|`. -/
def joinAlts : List (List Char) → List Char
  | [] => []
  | tok :: ts => tok ++ sepAlts ts

/-- The operator characters of the pattern language: `( ) [ ] | * -`. -/
def isOperator (c : Char) : Bool :=
  c == '(' || c == ')' || c == '[' || c == ']' || c == '|' || c == '*' || c == '-'

/-- The literal symbols of a string, read left to right: its characters other than the
operators. -/
def literals (s : List Char) : List Char :=
  s.filter fun c => !isOperator c

/-- Balanced parentheses: as many `(` as `)`, and no prefix with more `)` than `(`. -/
def balanced (s : List Char) : Prop :=
  s.count '(' = s.count ')' ∧ ∀ k ≤ s.length, (s.take k).count ')' ≤ (s.take k).count '('

instance balancedDecidable (s : List Char) : Decidable (balanced s) := by
  unfold balanced
  infer_instance

/-- What `gobble` looks for from the start index `i`: an index `j ≥ i` holding the target
`m` such that `pattern[i..j)` has as many mask characters `mr` as targets `m`. -/
def gobbleTarget (pattern : List Char) (i : Nat) (m mr : Char) (j : Nat) : Prop :=
  i ≤ j ∧ pattern[j]? = some m ∧
    ((pattern.drop i).take (j - i)).count mr = ((pattern.drop i).take (j - i)).count m

/-- Left-to-right check that square brackets are properly paired. The flag says whether
a class is open. Outside a class a `[` opens one and a `]` is an error; inside a class a
`]` closes it and a `[` is an error. The result is the flag at the end of the string. -/
def bracketScan : Bool → List Char → Option Bool
  | st, [] => some st
  | false, c :: cs =>
    if c = '[' then bracketScan true cs
    else if c = ']' then none
    else bracketScan false cs
  | true, c :: cs =>
    if c = ']' then bracketScan false cs
    else if c = '[' then none
    else bracketScan true cs

/-- Properly paired square brackets: every `[` is followed by a `]` before the next `[`,
and every `]` closes a `[`. -/
def bracketsPaired (p : List Char) : Prop :=
  bracketScan false p = some false

instance bracketsPairedDecidable (p : List Char) : Decidable (bracketsPaired p) := by
  unfold bracketsPaired
  infer_instance

/-- Left-to-right check that no character class contains `(` or `[`: the flag says
whether the scan is between a `[` and the next `]`. -/
def classesPlain : Bool → List Char → Bool
  | _, [] => true
  | false, c :: cs => classesPlain (c == '[') cs
  | true, c :: cs =>
    if c = ']' then classesPlain false cs
    else c != '(' && c != '[' && classesPlain true cs

/-- Result of running the scan loop of `expand` under a bound on its iterations and
nested calls: the bound was reached, the function returned `-1`, or it returned `0` with
the string in `*ret`. -/
inductive Outcome where
  | timeout : Outcome
  | failure : Outcome
  | success : List Char → Outcome
  deriving DecidableEq

/-- The outcome that corresponds to a result of `expandLoop` that is not caused by the
bound. -/
def Outcome.ofOption : Option (List Char) → Outcome
  | none => Outcome.failure
  | some r => Outcome.success r

/-- The scan loop of `expand` (src/regex.c, lines 61-97) with `expand_parens` inlined,
as `expandLoop`, except that reaching the bound is reported as `Outcome.timeout` and
kept apart from the return value `-1`. -/
def expandRun : Nat → List Char → Nat → List Char → Outcome
  | 0, _, _, _ => Outcome.timeout
  | fuel + 1, pattern, i, ret =>
    match pattern[i]? with
    | none => Outcome.success ret
    | some c =>
      if c = '(' then
        match gobble pattern (i + 1) ')' '(' with
        | none => Outcome.failure
        | some j =>
          let n := (j - i + 1) - 2
          let substring := (pattern.drop (i + 1)).take n
          match expandRun fuel substring 0 [] with
          | Outcome.timeout => Outcome.timeout
          | Outcome.failure => Outcome.failure
          | Outcome.success subret =>
            expandRun fuel pattern (j + 1) (ret ++ ['('] ++ subret ++ [')'])
      else if c = '[' then
        match expand_bracket pattern ret i with
        | none => Outcome.failure
        | some (ret1, j) => expandRun fuel pattern (j + 1) ret1
      else expandRun fuel pattern (i + 1) (ret ++ [c])

/-- The writes of the loop of `expand_bracket` (src/regex.c, lines 167-199) into the
scratch buffer `subex`: the list holds `substring[q..n)`, `k` is the write index,
`cap` is `subex_len`, the capacity of the block, and `ws` collects one pair
`(index, capacity at the time of the write)` per assignment `subex[...] = ...`. The result
is `none` where the function returns `-1`. -/
def subexLoop : List Char → Nat → Nat → List (Nat × Nat) → Option (Nat × Nat × List (Nat × Nat))
  | [], k, cap, ws => some (k, cap, ws)
  | c :: rest, k, cap, ws =>
    let cap1 := if 2 * k > cap then 3 * k + 1 else cap
    let sep := decide (k - 1 > 0 ∧ k - 1 < k)
    let ws1 := if sep then ws ++ [(k, cap1)] else ws
    let k1 := if sep then k + 1 else k
    if c.isDigit then
      if rest.head? = some '-' then
        match rest with
        | _ :: e :: rest3 =>
          if e.isDigit then
            subexLoop rest3 (k1 + 3) cap1 (ws1 ++ [(k1, cap1), (k1 + 1, cap1), (k1 + 2, cap1)])
          else none
        | _ => none
      else subexLoop rest (k1 + 1) cap1 (ws1 ++ [(k1, cap1)])
    else subexLoop rest (k1 + 1) cap1 (ws1 ++ [(k1, cap1)])

/-- The writes of `expand_bracket` (src/regex.c, lines 147-201) into `subex`, from
`subex[0] = '('` to `subex[k] = ')'`, each with the capacity of the block at that time:
`subex` is allocated with `n + 1` bytes. -/
def expand_bracket_writes (pattern : List Char) (i : Nat) : Option (List (Nat × Nat)) :=
  match gobble pattern (i + 1) ']' '\x00' with
  | none => none
  | some j =>
    let n := (j - i + 1) - 2
    let substring := (pattern.drop (i + 1)).take n
    match subexLoop substring 1 (n + 1) [(0, n + 1)] with
    | none => none
    | some (k, cap, ws) => some (ws ++ [(k, cap)])

/-- A fragment as `nfa_create` builds it (src/lib/nfa.c): the fields are the ones the
function body uses, `match_item`, `transition` (a NULL pointer is `none`) and `len`. -/
inductive lnfa where
  | mk : List Char → List (Option lnfa) → Nat → lnfa

/-- The field `match_item` of a fragment. -/
def lnfa.match_item : lnfa → List Char
  | lnfa.mk ms _ _ => ms

/-- The field `len` of a fragment. -/
def lnfa.len : lnfa → Nat
  | lnfa.mk _ _ n => n

/-- Modelled from the spec: `stack_create` of the LIFO stack library (`stack.h`, which is
not among the sources); the spec names it a generic LIFO stack with push, pop, size. -/
def stack_create : List lnfa := []

/-- Modelled from the spec: `stack_push` of the LIFO stack library. -/
def stack_push (stack : List lnfa) (e : lnfa) : List lnfa := e :: stack

/-- Modelled from the spec: `stack_pop` of the LIFO stack library, the element on top and
the stack left; popping an empty stack gives a NULL element. -/
def stack_pop : List lnfa → Option lnfa × List lnfa
  | [] => (none, [])
  | e :: stack => (some e, stack)

/-- Modelled from the spec: `stack_getsize` of the LIFO stack library. -/
def stack_getsize (stack : List lnfa) : Nat := stack.length

/-- Loop of `nfa_create` (src/lib/nfa.c, lines 24-67). The list holds `pattern[i..plen)`,
so `rest = []` is the test `i+1 >= plen`. `case '*'` has no `break` and falls through
into `case '|'`, which pops one fragment into the local `unon` and pushes nothing;
`case '('` falls through into `default`, which pushes a one-symbol fragment. The result
is `none` where the function returns NULL inside the loop. -/
def nfaLoop : List Char → List lnfa → Option (List lnfa)
  | [], stack => some stack
  | p :: rest, stack =>
    if p = '*' ∨ p = '|' then
      if rest = [] then none
      else nfaLoop rest (stack_pop stack).2
    else nfaLoop rest (stack_push stack (lnfa.mk [p] [none] 1))

/-- The function `nfa_create` of src/lib/nfa.c: the fragment returned, or `none` for
NULL. -/
def nfa_create (pattern : List Char) : Option lnfa :=
  match nfaLoop pattern stack_create with
  | none => none
  | some stack =>
    if stack_getsize stack ≠ 1 then none
    else (stack_pop stack).1

/-- Result of a run that keeps track of the capacities of its buffers: the run accessed
the index given first in a block of the capacity given second (an access outside the
block, from where the C run is undefined), the bound on iterations was reached, the
function returned `-1`, or it returned `0` with the values of its out-parameters. -/
inductive Res (α : Type) where
  | overrun : Nat → Nat → Res α
  | timeout : Res α
  | failure : Res α
  | ok : α → Res α
  deriving DecidableEq

/-- Sequencing of two parts of a run: the second part runs on what the first returned,
and every other result of the first part ends the run. -/
def Res.bind {α β : Type} : Res α → (α → Res β) → Res β
  | Res.overrun a c, _ => Res.overrun a c
  | Res.timeout, _ => Res.timeout
  | Res.failure, _ => Res.failure
  | Res.ok x, f => f x

/-- A value of type `size_t` (64 bits): arithmetic on it is modulo `2 ^ 64`. -/
def sz (n : Nat) : Nat := n % 2 ^ 64

/-- The difference `a - b` of two `size_t` values, which wraps around below zero. -/
def szsub (a b : Nat) : Nat := (a + 2 ^ 64 - b % 2 ^ 64) % 2 ^ 64

/-- One assignment `buf[r] = c` with `r` the number of characters written so far, in a
block of `cap` bytes. -/
def put (buf : List Char) (cap : Nat) (c : Char) : Res (List Char) :=
  if buf.length < cap then Res.ok (buf ++ [c]) else Res.overrun buf.length cap

/-- The character-by-character copy `strncpy(buf + r, src, strlen(src))` into a block of
`cap` bytes. -/
def putAll (buf : List Char) (cap : Nat) : List Char → Res (List Char)
  | [] => Res.ok buf
  | c :: src => (put buf cap c).bind fun buf1 => putAll buf1 cap src

/-- The guarded growth `if (grow) { cap = newcap; buf = realloc(buf, cap);
memset(buf + r, '\0', cap - r); }`: the capacity afterwards. The `memset` starts at
index `r` and its length `cap - r` wraps around when `cap < r`. -/
def growTo (grow : Bool) (buf : List Char) (cap newcap : Nat) : Res Nat :=
  if grow then
    if buf.length ≤ newcap then Res.ok newcap else Res.overrun buf.length newcap
  else Res.ok cap

/-- Loop of `expand_bracket` (src/regex.c, lines 167-199) with the capacity `cap`
(`subex_len`) of the scratch buffer: as `bracketLoop`, and every write is checked against
the capacity. -/
def bracketCap : List Char → List Char → Nat → Res (List Char × Nat)
  | [], subex, cap => Res.ok (subex, cap)
  | c :: rest, subex, cap =>
    let k := subex.length
    (growTo (decide (sz (2 * k) > cap)) subex cap (sz (3 * k + 1))).bind fun cap1 =>
    (if k - 1 > 0 ∧ k - 1 < k then put subex cap1 '|' else Res.ok subex).bind fun subex1 =>
    if c.isDigit then
      if rest.head? = some '-' then
        match rest with
        | _ :: e :: rest3 =>
          if e.isDigit then
            (putAll subex1 cap1 [c, '-', e]).bind fun subex2 => bracketCap rest3 subex2 cap1
          else Res.failure
        | _ => Res.failure
      else (put subex1 cap1 c).bind fun subex2 => bracketCap rest subex2 cap1
    else (put subex1 cap1 c).bind fun subex2 => bracketCap rest subex2 cap1

/-- The function `expand_bracket` of src/regex.c with its buffers: `subex` is allocated
with `n + 1` bytes, `strlen(subex)` needs the NUL behind the closing `)` inside the block,
and the caller's buffer grows by the test of line 206 before the copy of line 212. The
result holds the new contents of `*ret`, the new `*rlen` and the index `j`. -/
def expand_bracket_cap (pattern ret : List Char) (rlen i : Nat) :
    Res (List Char × Nat × Nat) :=
  match gobble pattern (i + 1) ']' '\x00' with
  | none => Res.failure
  | some j =>
    let n := (j - i + 1) - 2
    let substring := (pattern.drop (i + 1)).take n
    (put [] (n + 1) '(').bind fun subex0 =>
    (bracketCap substring subex0 (n + 1)).bind fun sc =>
    (put sc.1 sc.2 ')').bind fun subex1 =>
    if subex1.length < sc.2 then
      let subex_len := subex1.length + 1
      (growTo (decide (sz (2 * (subex_len - 1)) > szsub (szsub rlen 1) ret.length)) ret rlen
        (sz (3 * (subex_len - 1) + 1))).bind fun rlen1 =>
      (putAll ret rlen1 subex1).bind fun ret1 => Res.ok (ret1, rlen1, j)
    else Res.overrun subex1.length sc.2

/-- Body of `expand_parens` (src/regex.c, lines 106-145) with its buffers, the recursive
call to `expand` on the substring and a fresh buffer of `n + 1` bytes taken as the
parameter `expandSub`: the growth test of line 126 compares the length of the expanded
body with `*rlen - 1 - *r`, then `(`, the body and `)` are written. -/
def expand_parens_cap (expandSub : List Char → Nat → Res (List Char × Nat))
    (pattern ret : List Char) (rlen i : Nat) : Res (List Char × Nat × Nat) :=
  match gobble pattern (i + 1) ')' '(' with
  | none => Res.failure
  | some j =>
    let n := (j - i + 1) - 2
    let substring := (pattern.drop (i + 1)).take n
    (expandSub substring (n + 1)).bind fun sub =>
    let subret_len := sub.2
    (growTo (decide (subret_len - 1 > szsub (szsub rlen 1) ret.length)) ret rlen
      (sz (3 * (subret_len - 1) + 1))).bind fun rlen1 =>
    (put ret rlen1 '(').bind fun ret1 =>
    (putAll ret1 rlen1 sub.1).bind fun ret2 =>
    (put ret2 rlen1 ')').bind fun ret3 => Res.ok (ret3, rlen1, j)

/-- Scan loop of `expand` (src/regex.c, lines 61-102) with the capacity `rlen` of `*ret`:
as `expandRun`, with the growth test of line 64, every write checked against the
capacity, and the final `strlen(*ret)`, which needs a NUL inside the block. The result
holds the string left in `*ret` and the final `*rlen`. -/
def expandCapLoop : Nat → List Char → Nat → List Char → Nat → Res (List Char × Nat)
  | 0, _, _, _, _ => Res.timeout
  | fuel + 1, pattern, i, ret, rlen =>
    match pattern[i]? with
    | none =>
      if ret.length < rlen then Res.ok (ret, ret.length + 1)
      else Res.overrun ret.length rlen
    | some c =>
      (growTo (decide (sz (2 * ret.length) > rlen)) ret rlen
        (sz (3 * ret.length + 1))).bind fun rlen1 =>
      if c = '(' then
        (expand_parens_cap (fun s cap => expandCapLoop fuel s 0 [] cap) pattern ret rlen1
          i).bind fun st => expandCapLoop fuel pattern (st.2.2 + 1) st.1 st.2.1
      else if c = '[' then
        (expand_bracket_cap pattern ret rlen1 i).bind fun st =>
          expandCapLoop fuel pattern (st.2.2 + 1) st.1 st.2.1
      else (put ret rlen1 c).bind fun ret1 => expandCapLoop fuel pattern (i + 1) ret1 rlen1

/-- The function `expand` of src/regex.c run on a zero-filled buffer `*ret` of `rlen`
bytes. -/
def expand_cap (pattern : List Char) (rlen : Nat) : Res (List Char × Nat) :=
  expandCapLoop (pattern.length + 1) pattern 0 [] rlen

/-- Agreement of a capacity-tracking run of the loop of `expand_bracket` with the
string-level result: a run that leaves its block is not constrained, a run that returns
`-1` or completes does what `bracketLoop` does. -/
def bracketAgree (r : Res (List Char × Nat)) (o : Option (List Char)) : Prop :=
  match r with
  | Res.overrun _ _ => True
  | Res.timeout => False
  | Res.failure => o = none
  | Res.ok sc => o = some sc.1

/-- Agreement of a capacity-tracking run of `expand_bracket` or `expand_parens` with the
string-level result. -/
def stepAgree (r : Res (List Char × Nat × Nat)) (o : Option (List Char × Nat)) : Prop :=
  match r with
  | Res.overrun _ _ => True
  | Res.timeout => False
  | Res.failure => o = none
  | Res.ok st => o = some (st.1, st.2.2)

/-- Agreement of a capacity-tracking run of the scan loop with the outcome of `expandRun`:
a run that leaves its block is not constrained, every other run ends as `expandRun`
does and, when it returns `0`, with the same string and `*rlen` one more than its
length. -/
def runAgree (r : Res (List Char × Nat)) (o : Outcome) : Prop :=
  match r with
  | Res.overrun _ _ => True
  | Res.timeout => o = Outcome.timeout
  | Res.failure => o = Outcome.failure
  | Res.ok x => o = Outcome.success x.1 ∧ x.2 = x.1.length + 1

/-! ## Theorems -/

theorem gobbleLoop_paren_iff (l : List Char) (i d j : Nat) :
    gobbleLoop ')' '(' l i d = some j ↔
      ∃ s t, l = s ++ ')' :: t ∧ depthRun d s = some 0 ∧ j = i + s.length := by
  induction l generalizing i d with
  | nil => simp [gobbleLoop]
  | cons c rest ih =>
    by_cases hc : c = ')'
    · subst hc
      by_cases hd : d > 0
      · have h1 : gobbleLoop ')' '(' (')' :: rest) i d = gobbleLoop ')' '(' rest (i + 1) (d - 1) := by
          simp [gobbleLoop, hd]
        rw [h1, ih]
        constructor
        · rintro ⟨s, t, rfl, hs, rfl⟩
          refine ⟨')' :: s, t, rfl, ?_, ?_⟩
          · simp [depthRun, hd, hs]
          · simp; omega
        · rintro ⟨s, t, hst, hs, rfl⟩
          cases s with
          | nil => simp [depthRun] at hs; omega
          | cons a s =>
            simp only [List.cons_append, List.cons.injEq] at hst
            obtain ⟨rfl, rfl⟩ := hst
            refine ⟨s, t, rfl, ?_, ?_⟩
            · simpa [depthRun, hd] using hs
            · simp; omega
      · have hd0 : d = 0 := by omega
        subst hd0
        have h1 : gobbleLoop ')' '(' (')' :: rest) i 0 = some i := by
          simp [gobbleLoop]
        rw [h1]
        constructor
        · intro h
          refine ⟨[], rest, rfl, rfl, ?_⟩
          simp at h ⊢; omega
        · rintro ⟨s, t, hst, hs, rfl⟩
          cases s with
          | nil => simp
          | cons a s =>
            simp only [List.cons_append, List.cons.injEq] at hst
            obtain ⟨rfl, rfl⟩ := hst
            simp [depthRun] at hs
    · by_cases ho : c = '('
      · subst ho
        have h1 : gobbleLoop ')' '(' ('(' :: rest) i d = gobbleLoop ')' '(' rest (i + 1) (d + 1) := by
          simp [gobbleLoop]
        rw [h1, ih]
        constructor
        · rintro ⟨s, t, rfl, hs, rfl⟩
          refine ⟨'(' :: s, t, rfl, ?_, ?_⟩
          · simp [depthRun, hs]
          · simp; omega
        · rintro ⟨s, t, hst, hs, rfl⟩
          cases s with
          | nil => simp at hst
          | cons a s =>
            simp only [List.cons_append, List.cons.injEq] at hst
            obtain ⟨rfl, rfl⟩ := hst
            refine ⟨s, t, rfl, ?_, ?_⟩
            · simpa [depthRun] using hs
            · simp; omega
      · have h1 : gobbleLoop ')' '(' (c :: rest) i d = gobbleLoop ')' '(' rest (i + 1) d := by
          simp [gobbleLoop, hc, ho]
        rw [h1, ih]
        constructor
        · rintro ⟨s, t, rfl, hs, rfl⟩
          refine ⟨c :: s, t, rfl, ?_, ?_⟩
          · simp [depthRun, hs, hc, ho]
          · simp; omega
        · rintro ⟨s, t, hst, hs, rfl⟩
          cases s with
          | nil => simp at hst; exact absurd hst.1 hc
          | cons a s =>
            simp only [List.cons_append, List.cons.injEq] at hst
            obtain ⟨rfl, rfl⟩ := hst
            refine ⟨s, t, rfl, ?_, ?_⟩
            · simpa [depthRun, hc, ho] using hs
            · simp; omega

theorem gobbleLoop_bracket_iff (l : List Char) (i j : Nat) :
    gobbleLoop ']' '\x00' l i 0 = some j ↔
      ∃ s t, l = s ++ ']' :: t ∧ ']' ∉ s ∧ j = i + s.length := by
  induction l generalizing i with
  | nil => simp [gobbleLoop]
  | cons c rest ih =>
    by_cases hc : c = ']'
    · subst hc
      have h1 : gobbleLoop ']' '\x00' (']' :: rest) i 0 = some i := by
        simp [gobbleLoop]
      rw [h1]
      constructor
      · intro h
        refine ⟨[], rest, rfl, by simp, ?_⟩
        simp at h ⊢; omega
      · rintro ⟨s, t, hst, hs, rfl⟩
        cases s with
        | nil => simp
        | cons a s =>
          simp only [List.cons_append, List.cons.injEq] at hst
          obtain ⟨rfl, rfl⟩ := hst
          simp at hs
    · have h1 : gobbleLoop ']' '\x00' (c :: rest) i 0 = gobbleLoop ']' '\x00' rest (i + 1) 0 := by
        simp [gobbleLoop, hc]
      rw [h1, ih]
      constructor
      · rintro ⟨s, t, rfl, hs, rfl⟩
        refine ⟨c :: s, t, rfl, ?_, ?_⟩
        · simp [hs]; exact fun h => hc h.symm
        · simp; omega
      · rintro ⟨s, t, hst, hs, rfl⟩
        cases s with
        | nil => simp at hst; exact absurd hst.1 hc
        | cons a s =>
          simp only [List.cons_append, List.cons.injEq] at hst
          obtain ⟨rfl, rfl⟩ := hst
          refine ⟨s, t, rfl, ?_, ?_⟩
          · simp at hs; exact hs.2
          · simp; omega

theorem gobbleLoop_shift (m mr : Char) (l : List Char) (i d : Nat) :
    gobbleLoop m mr l i d = (gobbleLoop m mr l 0 d).map (· + i) := by
  induction l generalizing i d with
  | nil => simp [gobbleLoop]
  | cons c rest ih =>
    have key : ∀ d1, gobbleLoop m mr rest (i + 1) d1 =
        (gobbleLoop m mr rest (0 + 1) d1).map (· + i) := by
      intro d1
      rw [ih (i + 1) d1, ih (0 + 1) d1, Option.map_map]
      congr 1
      funext x
      simp only [Function.comp_apply]
      omega
    simp only [gobbleLoop]
    split_ifs <;> simp [key]

theorem gobble_eq_loop (p : List Char) (i : Nat) (m mr : Char) :
    gobble p i m mr = gobbleLoop m mr (p.drop i) i 0 := by
  unfold gobble
  split_ifs with h
  · rw [List.drop_of_length_le h]; simp [gobbleLoop]
  · rfl

theorem expandStep_ret (c : Char) (q ret : List Char) :
    expandStep c q ret = (expandStep c q []).map (ret ++ ·) := by
  unfold expandStep
  split_ifs
  · cases gobbleLoop ')' '(' q 0 0 with
    | none => simp
    | some k =>
      simp only []
      cases expand (q.take k) <;> cases expand (q.drop (k + 1)) <;> simp
  · cases gobbleLoop ']' '\x00' q 0 0 with
    | none => simp
    | some k =>
      simp only []
      cases bracketLoop (q.take k) ['('] <;> cases expand (q.drop (k + 1)) <;> simp
  · cases expand q <;> simp

theorem expandLoop_step (fuel : Nat) (p : List Char) (i : Nat) (ret : List Char)
    (c : Char) (q : List Char) (hc : p.drop i = c :: q) (hf : q.length < fuel)
    (ih : ∀ p i ret, p.length - i < fuel →
      expandLoop fuel p i ret = (expand (p.drop i)).map (ret ++ ·)) :
    expandLoop (fuel + 1) p i ret = expandStep c q ret := by
  have hi : i < p.length := by
    by_contra h
    rw [List.drop_of_length_le (by omega)] at hc
    cases hc
  have hget : p[i]? = some c := by
    have := congrArg List.head? hc
    simpa [List.head?_drop] using this
  have hq : q = p.drop (i + 1) := by
    have := congrArg List.tail hc
    simpa [List.tail_drop] using this.symm
  have hlen : q.length = p.length - (i + 1) := by rw [hq]; simp
  unfold expandLoop expandStep
  simp only [hget]
  split_ifs with h1 h2
  · -- group
    simp only [expand_parens_with, gobble_eq_loop, ← hq]
    rw [gobbleLoop_shift]
    cases hg : gobbleLoop ')' '(' q 0 0 with
    | none => simp
    | some k =>
      have hk : k ≤ q.length := by
        obtain ⟨s, t, hst, -, hj⟩ := (gobbleLoop_paren_iff q 0 0 k).1 hg
        rw [hst]; simp; omega
      simp only [Option.map_some']
      have e1 : k + (i + 1) - i + 1 - 2 = k := by omega
      rw [e1, ih _ _ _ (by simp; omega)]
      simp only [List.drop_zero, List.nil_append, Option.map_id']
      cases hs : expand (q.take k) with
      | none => simp
      | some es =>
        simp only [Option.some_bind]
        rw [ih _ _ _ (by omega)]
        have e2 : p.drop (k + (i + 1) + 1) = q.drop (k + 1) := by
          rw [hq, List.drop_drop]; congr 1; omega
        rw [e2]
        cases expand (q.drop (k + 1)) <;> simp
  · -- class
    simp only [expand_bracket, gobble_eq_loop, ← hq]
    rw [gobbleLoop_shift]
    cases hg : gobbleLoop ']' '\x00' q 0 0 with
    | none => simp
    | some k =>
      simp only [Option.map_some']
      have e1 : k + (i + 1) - i + 1 - 2 = k := by omega
      rw [e1]
      cases hs : bracketLoop (q.take k) ['('] with
      | none => simp
      | some sub =>
        simp only [Option.some_bind]
        rw [ih _ _ _ (by omega)]
        have e2 : p.drop (k + (i + 1) + 1) = q.drop (k + 1) := by
          rw [hq, List.drop_drop]; congr 1; omega
        rw [e2]
        cases expand (q.drop (k + 1)) <;> simp
  · rw [ih _ _ _ (by omega), ← hq]
    cases expand q <;> simp

theorem expand_nil : expand [] = some [] := by
  simp [expand, expandLoop]

theorem expandLoop_eq (fuel : Nat) (p : List Char) (i : Nat) (ret : List Char)
    (h : p.length - i < fuel) :
    expandLoop fuel p i ret = (expand (p.drop i)).map (ret ++ ·) := by
  induction fuel using Nat.strong_induction_on generalizing p i ret with
  | _ fuel ih =>
    cases fuel with
    | zero => omega
    | succ fuel =>
      cases hd : p.drop i with
      | nil =>
        have hi : p.length ≤ i := by simpa using hd
        have : p[i]? = none := by simp [hi]
        simp [expandLoop, this, expand_nil]
      | cons c q =>
        have hlen : q.length + 1 = p.length - i := by
          have := congrArg List.length hd
          simp at this; omega
        rw [expandLoop_step fuel p i ret c q hd (by omega)
          (fun p i ret hh => ih fuel (by omega) p i ret hh)]
        have : expand (c :: q) = expandStep c q [] := by
          unfold expand
          exact expandLoop_step (q.length + 1) (c :: q) 0 [] c q rfl (by omega)
            (fun p i ret hh => ih (q.length + 1) (by omega) p i ret hh)
        rw [this, expandStep_ret]

theorem expand_cons (c : Char) (q : List Char) : expand (c :: q) = expandStep c q [] := by
  unfold expand
  exact expandLoop_step (q.length + 1) (c :: q) 0 [] c q rfl (by omega)
    (fun p i ret hh => expandLoop_eq _ p i ret hh)

theorem expand_lit (c : Char) (q : List Char) (h1 : c ≠ '(') (h2 : c ≠ '[') :
    expand (c :: q) = (expand q).map (c :: ·) := by
  rw [expand_cons]
  simp [expandStep, h1, h2]

theorem expand_group (s t : List Char) (hs : depthRun 0 s = some 0) :
    expand ('(' :: (s ++ ')' :: t)) =
      (expand s).bind fun es => (expand t).map fun et => '(' :: (es ++ ')' :: et) := by
  have hg : gobbleLoop ')' '(' (s ++ ')' :: t) 0 0 = some s.length := by
    rw [gobbleLoop_paren_iff]
    exact ⟨s, t, rfl, hs, by simp⟩
  rw [expand_cons]
  simp [expandStep, hg]

theorem expand_paren_cases (q : List Char) :
    expand ('(' :: q) = none ∨ ∃ s t, q = s ++ ')' :: t ∧ depthRun 0 s = some 0 := by
  cases hg : gobbleLoop ')' '(' q 0 0 with
  | none => left; rw [expand_cons]; simp [expandStep, hg]
  | some k =>
    right
    obtain ⟨s, t, hst, hs, -⟩ := (gobbleLoop_paren_iff q 0 0 k).1 hg
    exact ⟨s, t, hst, hs⟩

theorem expand_class (s t : List Char) (hs : ']' ∉ s) :
    expand ('[' :: (s ++ ']' :: t)) =
      (bracketLoop s ['(']).bind fun sub => (expand t).map fun et => sub ++ ')' :: et := by
  have hg : gobbleLoop ']' '\x00' (s ++ ']' :: t) 0 0 = some s.length := by
    rw [gobbleLoop_bracket_iff]
    exact ⟨s, t, rfl, hs, by simp⟩
  rw [expand_cons]
  simp [expandStep, hg]

theorem expand_bracket_open (q : List Char) (h : ']' ∉ q) : expand ('[' :: q) = none := by
  cases hg : gobbleLoop ']' '\x00' q 0 0 with
  | none => rw [expand_cons]; simp [expandStep, hg]
  | some k =>
    obtain ⟨s, t, hst, -, -⟩ := (gobbleLoop_bracket_iff q 0 k).1 hg
    exact absurd (by rw [hst]; simp) h

/-- Induction along the way `expand` reads a pattern: a copied character, a group with
its balanced body, a class with its body, and the two ways a scan can stop. -/
theorem expand_rec {P : List Char → Prop} (nil : P [])
    (lit : ∀ c q, c ≠ '(' → c ≠ '[' → P q → P (c :: q))
    (popen : ∀ q, expand ('(' :: q) = none → P ('(' :: q))
    (group : ∀ s t, depthRun 0 s = some 0 → P s → P t → P ('(' :: (s ++ ')' :: t)))
    (bopen : ∀ q, ']' ∉ q → P ('[' :: q))
    (cls : ∀ s t, ']' ∉ s → P t → P ('[' :: (s ++ ']' :: t))) :
    ∀ p, P p := by
  have key : ∀ n p, p.length = n → P p := by
    intro n
    induction n using Nat.strong_induction_on with
    | _ n ih =>
      intro p h
      cases p with
      | nil => exact nil
      | cons c q =>
        simp only [List.length_cons] at h
        by_cases h1 : c = '('
        · subst h1
          rcases expand_paren_cases q with hn | ⟨s, t, rfl, hs⟩
          · exact popen q hn
          · refine group s t hs (ih s.length ?_ s rfl) (ih t.length ?_ t rfl) <;>
              (simp at h; omega)
        · by_cases h2 : c = '['
          · subst h2
            by_cases hq : ']' ∈ q
            · obtain ⟨s, t, rfl, hs⟩ := List.eq_append_cons_of_mem hq
              refine cls s t hs (ih t.length ?_ t rfl)
              simp at h; omega
            · exact bopen q hq
          · exact lit c q h1 h2 (ih q.length (by omega) q rfl)
  exact fun p => key p.length p rfl

theorem bracketLoop_range (c e : Char) (rest3 subex : List Char) (hc : c.isDigit = true) :
    bracketLoop (c :: '-' :: e :: rest3) subex =
      if e.isDigit then
        bracketLoop rest3 ((if subex.length - 1 > 0 ∧ subex.length - 1 < subex.length
          then subex ++ ['|'] else subex) ++ [c, '-', e])
      else none := by
  conv_lhs => unfold bracketLoop
  simp [hc]

theorem bracketLoop_range_end (c : Char) (subex : List Char) (hc : c.isDigit = true) :
    bracketLoop [c, '-'] subex = none := by
  conv_lhs => unfold bracketLoop
  simp [hc]

theorem bracketLoop_single (c : Char) (rest subex : List Char)
    (h : ¬ (c.isDigit = true ∧ rest.head? = some '-')) :
    bracketLoop (c :: rest) subex =
      bracketLoop rest ((if subex.length - 1 > 0 ∧ subex.length - 1 < subex.length
        then subex ++ ['|'] else subex) ++ [c]) := by
  conv_lhs => unfold bracketLoop
  by_cases hc : c.isDigit = true
  · have : ¬ rest.head? = some '-' := fun h2 => h ⟨hc, h2⟩
    simp [hc, this]
  · simp [hc]

theorem bracketAlts_range (c e : Char) (rest3 : List Char) (hc : c.isDigit = true) :
    bracketAlts (c :: '-' :: e :: rest3) =
      if e.isDigit then (bracketAlts rest3).map ([c, '-', e] :: ·) else none := by
  conv_lhs => unfold bracketAlts
  simp [hc]

theorem bracketAlts_range_end (c : Char) (hc : c.isDigit = true) :
    bracketAlts [c, '-'] = none := by
  conv_lhs => unfold bracketAlts
  simp [hc]

theorem bracketAlts_single (c : Char) (rest : List Char)
    (h : ¬ (c.isDigit = true ∧ rest.head? = some '-')) :
    bracketAlts (c :: rest) = (bracketAlts rest).map ([c] :: ·) := by
  conv_lhs => unfold bracketAlts
  by_cases hc : c.isDigit = true
  · have : ¬ rest.head? = some '-' := fun h2 => h ⟨hc, h2⟩
    simp [hc, this]
  · simp [hc]

/-- The three shapes of a non-empty class body as the loop of `expand_bracket` sees
them: a single alternative, a complete range start, a range start cut short. -/
theorem bracket_shape (c : Char) (rest : List Char) :
    (¬ (c.isDigit = true ∧ rest.head? = some '-')) ∨
    (c.isDigit = true ∧ ∃ e rest3, rest = '-' :: e :: rest3) ∨
    (c.isDigit = true ∧ rest = ['-']) := by
  by_cases h : c.isDigit = true ∧ rest.head? = some '-'
  · right
    obtain ⟨hc, hh⟩ := h
    match rest, hh with
    | [x], hh => right; simp at hh; exact ⟨hc, by rw [hh]⟩
    | x :: e :: rest3, hh => left; simp at hh; exact ⟨hc, e, rest3, by rw [hh]⟩
  · left; exact h

theorem bracketLoop_sep (l subex : List Char) (h : 2 ≤ subex.length) :
    bracketLoop l subex = (bracketAlts l).map fun ts => subex ++ sepAlts ts := by
  have key : ∀ n l subex, l.length = n → 2 ≤ subex.length →
      bracketLoop l subex = (bracketAlts l).map fun ts => subex ++ sepAlts ts := by
    intro n
    induction n using Nat.strong_induction_on with
    | _ n ih =>
      intro l subex hl h
      cases l with
      | nil => simp [bracketLoop, bracketAlts, sepAlts]
      | cons c rest =>
        have hk : subex.length - 1 > 0 ∧ subex.length - 1 < subex.length := by omega
        simp only [List.length_cons] at hl
        rcases bracket_shape c rest with h1 | ⟨hc, e, rest3, rfl⟩ | ⟨hc, rfl⟩
        · rw [bracketLoop_single c rest subex h1, bracketAlts_single c rest h1, if_pos hk,
            ih rest.length (by omega) rest _ rfl (by simp)]
          cases bracketAlts rest <;> simp [sepAlts]
        · rw [bracketLoop_range c e rest3 subex hc, bracketAlts_range c e rest3 hc, if_pos hk]
          split_ifs with h3
          · rw [ih rest3.length (by simp at hl; omega) rest3 _ rfl (by simp)]
            cases bracketAlts rest3 <;> simp [sepAlts]
          · rfl
        · rw [bracketLoop_range_end c subex hc, bracketAlts_range_end c hc, Option.map_none']
  exact key l.length l subex rfl h

theorem bracketLoop_open (l : List Char) :
    bracketLoop l ['('] = (bracketAlts l).map fun ts => '(' :: joinAlts ts := by
  cases l with
  | nil => simp [bracketLoop, bracketAlts, joinAlts]
  | cons c rest =>
    rcases bracket_shape c rest with h1 | ⟨hc, e, rest3, rfl⟩ | ⟨hc, rfl⟩
    · rw [bracketLoop_single c rest _ h1, bracketAlts_single c rest h1]
      simp only [List.length_singleton, Nat.sub_self, gt_iff_lt, Nat.lt_irrefl, false_and,
        if_false]
      rw [bracketLoop_sep _ _ (by simp)]
      cases bracketAlts rest <;> simp [joinAlts]
    · rw [bracketLoop_range c e rest3 _ hc, bracketAlts_range c e rest3 hc]
      simp only [List.length_singleton, Nat.sub_self, gt_iff_lt, Nat.lt_irrefl, false_and,
        if_false]
      split_ifs with h3
      · rw [bracketLoop_sep _ _ (by simp)]
        cases bracketAlts rest3 <;> simp [joinAlts]
      · rfl
    · rw [bracketLoop_range_end c _ hc, bracketAlts_range_end c hc, Option.map_none']

theorem depthRun_iff (s : List Char) (d r : Nat) :
    depthRun d s = some r ↔
      (∀ k, (s.take k).count ')' ≤ d + (s.take k).count '(') ∧
        r + s.count ')' = d + s.count '(' := by
  induction s generalizing d with
  | nil => simp [depthRun]; constructor <;> intro h <;> omega
  | cons c cs ih =>
    have hsplit : ∀ Q : Nat → Prop, (∀ k, Q k) ↔ Q 0 ∧ ∀ k, Q (k + 1) := by
      intro Q
      constructor
      · intro h; exact ⟨h 0, fun k => h (k + 1)⟩
      · rintro ⟨h0, h1⟩ k; cases k with
        | zero => exact h0
        | succ k => exact h1 k
    rw [hsplit]
    by_cases hc : c = ')'
    · subst hc
      have hne : '(' ≠ ')' := by decide
      by_cases hd : d > 0
      · have h1 : depthRun d (')' :: cs) = depthRun (d - 1) cs := by simp [depthRun, hd]
        rw [h1, ih]
        simp only [List.take_succ_cons, List.count_cons_self, List.take_zero, List.count_nil,
          List.count_cons_of_ne hne]
        constructor
        · rintro ⟨ha, hb⟩
          exact ⟨⟨by omega, fun k => by have := ha k; omega⟩, by omega⟩
        · rintro ⟨⟨-, ha⟩, hb⟩
          exact ⟨fun k => by have := ha k; omega, by omega⟩
      · have h1 : depthRun d (')' :: cs) = none := by simp [depthRun, hd]
        rw [h1]
        simp only [List.take_succ_cons, List.count_cons_self, List.take_zero, List.count_nil,
          List.count_cons_of_ne hne]
        constructor
        · intro h; cases h
        · rintro ⟨⟨-, ha⟩, -⟩
          have := ha 0
          simp at this
          omega
    · by_cases ho : c = '('
      · subst ho
        have hne : ')' ≠ '(' := by decide
        have h1 : depthRun d ('(' :: cs) = depthRun (d + 1) cs := by simp [depthRun]
        rw [h1, ih]
        simp only [List.take_succ_cons, List.count_cons_self, List.take_zero, List.count_nil,
          List.count_cons_of_ne hne]
        constructor
        · rintro ⟨ha, hb⟩
          exact ⟨⟨by omega, fun k => by have := ha k; omega⟩, by omega⟩
        · rintro ⟨⟨-, ha⟩, hb⟩
          exact ⟨fun k => by have := ha k; omega, by omega⟩
      · have h1 : depthRun d (c :: cs) = depthRun d cs := by simp [depthRun, hc, ho]
        rw [h1, ih]
        simp only [List.take_succ_cons, List.take_zero, List.count_nil,
          List.count_cons_of_ne (Ne.symm hc), List.count_cons_of_ne (Ne.symm ho)]
        constructor
        · rintro ⟨ha, hb⟩
          exact ⟨⟨by omega, fun k => by have := ha k; omega⟩, by omega⟩
        · rintro ⟨⟨-, ha⟩, hb⟩
          exact ⟨fun k => by have := ha k; omega, by omega⟩

theorem balanced_iff_depthRun (s : List Char) : balanced s ↔ depthRun 0 s = some 0 := by
  rw [depthRun_iff]
  unfold balanced
  constructor
  · rintro ⟨h1, h2⟩
    refine ⟨fun k => ?_, by omega⟩
    by_cases hk : k ≤ s.length
    · have := h2 k hk; omega
    · rw [List.take_of_length_le (by omega)]; omega
  · rintro ⟨h1, h2⟩
    exact ⟨by omega, fun k _ => by have := h1 k; omega⟩

theorem isDigit_ne_dash (d : Char) (h : d.isDigit = true) : d ≠ '-' := by
  rintro rfl
  exact absurd h (by decide)

theorem bracketAlts_plain_append (u tail : List Char) (hu : '-' ∉ u)
    (ht : tail.head? ≠ some '-') :
    bracketAlts (u ++ tail) = (bracketAlts tail).map fun ts => u.map (fun c => [c]) ++ ts := by
  induction u with
  | nil => simp
  | cons c u ih =>
    have hu1 : '-' ∉ u := fun h => hu (List.mem_cons_of_mem _ h)
    have hh : ¬ (c.isDigit = true ∧ (u ++ tail).head? = some '-') := by
      rintro ⟨-, h⟩
      cases u with
      | nil => exact ht (by simpa using h)
      | cons a u =>
        simp at h
        exact hu (by simp [h])
    rw [List.cons_append, bracketAlts_single c _ hh, ih hu1]
    cases bracketAlts tail <;> simp

theorem bracketAlts_plain (s : List Char) (hs : '-' ∉ s) :
    bracketAlts s = some (s.map fun c => [c]) := by
  have := bracketAlts_plain_append s [] hs (by simp)
  simpa [bracketAlts] using this

theorem joinAlts_singletons (s : List Char) :
    joinAlts (s.map fun c => [c]) = s.intersperse '|' := by
  cases s with
  | nil => rfl
  | cons c s =>
    simp only [List.map_cons, joinAlts]
    induction s generalizing c with
    | nil => simp [sepAlts]
    | cons a s ih =>
      have := ih a
      simp only [sepAlts, List.map_cons, List.flatten_cons, List.singleton_append] at this ⊢
      rw [List.intersperse_cons_cons, ← this]
      simp

theorem joinAlts_eq_intercalate (ts : List (List Char)) :
    joinAlts ts = ['|'].intercalate ts := by
  cases ts with
  | nil => rfl
  | cons tok ts =>
    simp only [joinAlts]
    induction ts generalizing tok with
    | nil => simp [sepAlts, List.intercalate]
    | cons a ts ih =>
      have := ih a
      simp only [sepAlts, List.map_cons, List.flatten_cons, List.intercalate,
        List.intersperse_cons_cons] at this ⊢
      rw [← this]
      simp

theorem expand_single_class (s : List Char) (hs : ']' ∉ s) :
    expand ('[' :: (s ++ [']'])) =
      (bracketAlts s).map fun ts => '(' :: (joinAlts ts ++ [')']) := by
  rw [expand_class s [] hs, bracketLoop_open, expand_nil]
  cases bracketAlts s <;> simp

theorem bracketAlts_flatten (s : List Char) (ts : List (List Char))
    (h : bracketAlts s = some ts) : ts.flatten = s := by
  have key : ∀ n s ts, s.length = n → bracketAlts s = some ts → ts.flatten = s := by
    intro n
    induction n using Nat.strong_induction_on with
    | _ n ih =>
      intro s ts hl h
      cases s with
      | nil => simp [bracketAlts] at h; subst h; rfl
      | cons c rest =>
        simp only [List.length_cons] at hl
        rcases bracket_shape c rest with h1 | ⟨hc, e, rest3, rfl⟩ | ⟨hc, rfl⟩
        · rw [bracketAlts_single c rest h1] at h
          cases hr : bracketAlts rest with
          | none => simp [hr] at h
          | some ts1 =>
            simp [hr] at h
            rw [← h]
            simp [ih rest.length (by omega) rest ts1 rfl hr]
        · rw [bracketAlts_range c e rest3 hc] at h
          split_ifs at h with h3
          cases hr : bracketAlts rest3 with
          | none => simp [hr] at h
          | some ts1 =>
            simp [hr] at h
            rw [← h]
            simp [ih rest3.length (by simp at hl; omega) rest3 ts1 rfl hr]
        · rw [bracketAlts_range_end c hc] at h
          cases h
  exact key s.length s ts rfl h

theorem literals_append (a b : List Char) : literals (a ++ b) = literals a ++ literals b := by
  simp [literals]

theorem literals_cons_operator (c : Char) (a : List Char) (h : isOperator c = true) :
    literals (c :: a) = literals a := by
  simp [literals, h]

theorem literals_sepAlts (ts : List (List Char)) : literals (sepAlts ts) = literals ts.flatten := by
  induction ts with
  | nil => rfl
  | cons tok ts ih =>
    simp only [sepAlts, List.map_cons, List.flatten_cons] at ih ⊢
    rw [List.cons_append, literals_cons_operator _ _ (by decide), literals_append,
      literals_append, ih]

theorem literals_joinAlts (ts : List (List Char)) : literals (joinAlts ts) = literals ts.flatten := by
  cases ts with
  | nil => rfl
  | cons tok ts =>
    simp only [joinAlts, List.flatten_cons]
    rw [literals_append, literals_append, literals_sepAlts]

theorem expand_literals (p : List Char) :
    ∀ e, expand p = some e → literals e = literals p := by
  induction p using expand_rec with
  | nil => intro e h; rw [expand_nil] at h; cases h; rfl
  | lit c q h1 h2 ih =>
    intro e h
    rw [expand_lit c q h1 h2] at h
    cases hq : expand q with
    | none => simp [hq] at h
    | some eq =>
      simp [hq] at h
      subst h
      have := ih eq hq
      simp only [literals, List.filter_cons] at this ⊢
      rw [this]
  | popen q hn => intro e h; rw [hn] at h; cases h
  | group s t hs ihs iht =>
    intro e h
    rw [expand_group s t hs] at h
    cases h1 : expand s with
    | none => simp [h1] at h
    | some es =>
      cases h2 : expand t with
      | none => simp [h1, h2] at h
      | some et =>
        simp [h1, h2] at h
        subst h
        rw [literals_cons_operator _ _ (by decide), literals_append,
          literals_cons_operator _ _ (by decide), literals_cons_operator _ _ (by decide),
          literals_append, literals_cons_operator _ _ (by decide), ihs es h1, iht et h2]
  | bopen q hq => intro e h; rw [expand_bracket_open q hq] at h; cases h
  | cls s t hs iht =>
    intro e h
    rw [expand_class s t hs, bracketLoop_open] at h
    cases h1 : bracketAlts s with
    | none => simp [h1] at h
    | some ts =>
      cases h2 : expand t with
      | none => simp [h1, h2] at h
      | some et =>
        simp [h1, h2] at h
        subst h
        rw [literals_cons_operator _ _ (by decide), literals_append,
          literals_cons_operator _ _ (by decide), literals_cons_operator _ _ (by decide),
          literals_append, literals_cons_operator _ _ (by decide), literals_joinAlts,
          bracketAlts_flatten s ts h1, iht et h2]

theorem first_index_shift (A B : Nat → Prop) (i j : Nat) (h0 : ¬ A 0)
    (hs : ∀ k, A (k + 1) ↔ B k) :
    (∃ k, j = i + k ∧ A k ∧ ∀ n < k, ¬ A n) ↔
      (∃ k, j = i + 1 + k ∧ B k ∧ ∀ n < k, ¬ B n) := by
  constructor
  · rintro ⟨k, rfl, hk, hmin⟩
    cases k with
    | zero => exact absurd hk h0
    | succ k =>
      refine ⟨k, by omega, (hs k).1 hk, fun n hn hB => ?_⟩
      exact hmin (n + 1) (by omega) ((hs n).2 hB)
  · rintro ⟨k, rfl, hk, hmin⟩
    refine ⟨k + 1, by omega, (hs k).2 hk, fun n hn hA => ?_⟩
    cases n with
    | zero => exact h0 hA
    | succ n => exact hmin n (by omega) ((hs n).1 hA)

theorem gobbleLoop_least (m mr : Char) (hne : mr ≠ m) (l : List Char) (i d j : Nat)
    (hnul : mr = '\x00' → '\x00' ∉ l) :
    gobbleLoop m mr l i d = some j ↔
      ∃ k, j = i + k ∧
        (l[k]? = some m ∧ d + (l.take k).count mr = (l.take k).count m) ∧
        ∀ n < k, ¬ (l[n]? = some m ∧ d + (l.take n).count mr = (l.take n).count m) := by
  induction l generalizing i d with
  | nil => simp [gobbleLoop]
  | cons c rest ih =>
    have hnul1 : mr = '\x00' → '\x00' ∉ rest := fun h hm =>
      hnul h (List.mem_cons_of_mem _ hm)
    by_cases hc : c = m
    · subst hc
      have hmr : ¬ (mr ≠ '\x00' ∧ c = mr) := fun h => hne h.2.symm
      by_cases hd : d > 0
      · have h1 : gobbleLoop c mr (c :: rest) i d = gobbleLoop c mr rest (i + 1) (d - 1) := by
          simp [gobbleLoop, hmr, hd]
        rw [h1, ih (i + 1) (d - 1) hnul1]
        symm
        apply first_index_shift
        · simp; omega
        · intro k
          simp only [List.getElem?_cons_succ, List.take_succ_cons, List.count_cons_self,
            List.count_cons_of_ne hne]
          constructor <;> rintro ⟨ha, hb⟩ <;> exact ⟨ha, by omega⟩
      · have hd0 : d = 0 := by omega
        subst hd0
        have h1 : gobbleLoop c mr (c :: rest) i 0 = some i := by
          simp [gobbleLoop, hmr]
        rw [h1]
        constructor
        · intro h
          refine ⟨0, by simp at h; omega, by simp, fun n hn => by omega⟩
        · rintro ⟨k, rfl, -, hmin⟩
          cases k with
          | zero => rfl
          | succ k => exact absurd (by simp) (hmin 0 (by omega))
    · by_cases hcm : c = mr
      · subst hcm
        have hz : c ≠ '\x00' := fun h => hnul h (by simp [h])
        have h1 : gobbleLoop m c (c :: rest) i d = gobbleLoop m c rest (i + 1) (d + 1) := by
          simp [gobbleLoop, hz, hc]
        rw [h1, ih (i + 1) (d + 1) hnul1]
        symm
        apply first_index_shift
        · simp [hc]
        · intro k
          simp only [List.getElem?_cons_succ, List.take_succ_cons, List.count_cons_self,
            List.count_cons_of_ne (Ne.symm hc)]
          constructor <;> rintro ⟨ha, hb⟩ <;> exact ⟨ha, by omega⟩
      · have h1 : gobbleLoop m mr (c :: rest) i d = gobbleLoop m mr rest (i + 1) d := by
          simp [gobbleLoop, hcm, hc]
        rw [h1, ih (i + 1) d hnul1]
        symm
        apply first_index_shift
        · simp [hc]
        · intro k
          simp only [List.getElem?_cons_succ, List.take_succ_cons,
            List.count_cons_of_ne (Ne.symm hc), List.count_cons_of_ne (Ne.symm hcm)]

theorem gobbleLoop_first (m : Char) (l : List Char) (i j : Nat) :
    gobbleLoop m '\x00' l i 0 = some j ↔
      ∃ k, j = i + k ∧ l[k]? = some m ∧ ∀ n < k, ¬ l[n]? = some m := by
  induction l generalizing i with
  | nil => simp [gobbleLoop]
  | cons c rest ih =>
    by_cases hc : c = m
    · subst hc
      have h1 : gobbleLoop c '\x00' (c :: rest) i 0 = some i := by simp [gobbleLoop]
      rw [h1]
      constructor
      · intro h
        refine ⟨0, by simp at h; omega, by simp, fun n hn => by omega⟩
      · rintro ⟨k, rfl, -, hmin⟩
        cases k with
        | zero => rfl
        | succ k => exact absurd (by simp) (hmin 0 (by omega))
    · have h1 : gobbleLoop m '\x00' (c :: rest) i 0 = gobbleLoop m '\x00' rest (i + 1) 0 := by
        simp [gobbleLoop, hc]
      rw [h1, ih (i + 1)]
      symm
      apply first_index_shift (fun k => (c :: rest)[k]? = some m) (fun k => rest[k]? = some m)
      · simp [hc]
      · intro k; simp

theorem gobble_least (pattern : List Char) (i j : Nat) (m mr : Char) (hne : mr ≠ m)
    (hstr : mr = '\x00' → '\x00' ∉ pattern) :
    gobble pattern i m mr = some j ↔
      gobbleTarget pattern i m mr j ∧ ∀ n, gobbleTarget pattern i m mr n → j ≤ n := by
  have hnul : mr = '\x00' → '\x00' ∉ pattern.drop i := fun h hm =>
    hstr h (List.mem_of_mem_drop hm)
  rw [gobble_eq_loop, gobbleLoop_least m mr hne _ i 0 j hnul]
  unfold gobbleTarget
  simp only [List.getElem?_drop, Nat.zero_add]
  constructor
  · rintro ⟨k, rfl, ⟨h1, h2⟩, hmin⟩
    refine ⟨⟨by omega, h1, ?_⟩, ?_⟩
    · rw [Nat.add_sub_cancel_left]; exact h2
    · rintro n ⟨hn1, hn2, hn3⟩
      by_contra hlt
      apply hmin (n - i) (by omega)
      refine ⟨?_, hn3⟩
      rw [Nat.add_sub_cancel' hn1]; exact hn2
  · rintro ⟨⟨h1, h2, h3⟩, hmin⟩
    refine ⟨j - i, by omega, ⟨?_, h3⟩, ?_⟩
    · rw [Nat.add_sub_cancel' h1]; exact h2
    · rintro n hn ⟨hn1, hn2⟩
      have := hmin (i + n) ⟨by omega, hn1, by rw [Nat.add_sub_cancel_left]; exact hn2⟩
      omega

theorem gobble_none_iff (pattern : List Char) (i : Nat) (m mr : Char) (hne : mr ≠ m)
    (hstr : mr = '\x00' → '\x00' ∉ pattern) :
    gobble pattern i m mr = none ↔ ¬ ∃ n, gobbleTarget pattern i m mr n := by
  constructor
  · rintro h ⟨n, hn⟩
    classical
    have hex : ∃ n, gobbleTarget pattern i m mr n := ⟨n, hn⟩
    have h1 := (gobble_least pattern i (Nat.find hex) m mr hne hstr).2
      ⟨Nat.find_spec hex, fun n hn => Nat.find_min' hex hn⟩
    rw [h] at h1
    cases h1
  · intro h
    cases hg : gobble pattern i m mr with
    | none => rfl
    | some j => exact absurd ⟨j, ((gobble_least pattern i j m mr hne hstr).1 hg).1⟩ h

theorem gobble_first (pattern : List Char) (i j : Nat) (m : Char) :
    gobble pattern i m '\x00' = some j ↔
      i ≤ j ∧ pattern[j]? = some m ∧ ∀ n, i ≤ n → n < j → pattern[n]? ≠ some m := by
  rw [gobble_eq_loop, gobbleLoop_first]
  simp only [List.getElem?_drop]
  constructor
  · rintro ⟨k, rfl, h1, hmin⟩
    refine ⟨by omega, h1, fun n hn1 hn2 hn3 => hmin (n - i) (by omega) ?_⟩
    rw [Nat.add_sub_cancel' hn1]; exact hn3
  · rintro ⟨h1, h2, hmin⟩
    refine ⟨j - i, by omega, ?_, fun n hn hn2 => hmin (i + n) (by omega) (by omega) hn2⟩
    rw [Nat.add_sub_cancel' h1]; exact h2

/-- Copying a character other than `(` keeps every suffix free of unclosed `(`. -/
theorem closed_cons (c : Char) (q : List Char) (hc : c ≠ '(')
    (hq : ∀ k, (q.drop k).count '(' ≤ (q.drop k).count ')') :
    ∀ k, ((c :: q).drop k).count '(' ≤ ((c :: q).drop k).count ')' := by
  intro k
  cases k with
  | zero =>
    have := hq 0
    simp only [List.drop_zero] at this ⊢
    rw [List.count_cons_of_ne (Ne.symm hc)]
    exact le_trans this (List.count_le_count_cons _ _ _)
  | succ k => simpa using hq k

theorem closed_append (a b : List Char)
    (ha : ∀ k, (a.drop k).count '(' ≤ (a.drop k).count ')')
    (hb : ∀ k, (b.drop k).count '(' ≤ (b.drop k).count ')') :
    ∀ k, ((a ++ b).drop k).count '(' ≤ ((a ++ b).drop k).count ')' := by
  intro k
  rw [List.drop_append_eq_append_drop, List.count_append, List.count_append]
  exact Nat.add_le_add (ha k) (hb _)

theorem expand_closed (p : List Char) :
    '[' ∉ p → expand p ≠ none → ∀ k, (p.drop k).count '(' ≤ (p.drop k).count ')' := by
  induction p using expand_rec with
  | nil => intro _ _ k; simp
  | lit c q h1 h2 ih =>
    intro hin hne
    refine closed_cons c q h1 (ih (fun h => hin (List.mem_cons_of_mem _ h)) ?_)
    intro h
    apply hne
    rw [expand_lit c q h1 h2, h]
    rfl
  | popen q hn => intro _ hne; exact absurd hn hne
  | group s t hs ihs iht =>
    intro hin hne
    have hs1 : '[' ∉ s := fun h => hin (by simp [h])
    have ht1 : '[' ∉ t := fun h => hin (by simp [h])
    rw [expand_group s t hs] at hne
    have hes : expand s ≠ none := by
      intro h; apply hne; rw [h]; rfl
    have het : expand t ≠ none := by
      intro h; apply hne; rw [h]; cases expand s <;> rfl
    have hrest := closed_append s (')' :: t) (ihs hs1 hes)
      (closed_cons ')' t (by decide) (iht ht1 het))
    intro k
    cases k with
    | zero =>
      have hcount := ((depthRun_iff s 0 0).1 hs).2
      have ht0 := iht ht1 het 0
      simp only [List.drop_zero] at ht0 ⊢
      simp only [List.count_cons, List.count_append]
      simp
      omega
    | succ k => simpa using hrest k
  | bopen q hq => intro hin; exact absurd (by simp) hin
  | cls s t hs iht => intro hin; exact absurd (by simp) hin

theorem bracket_bad_range (u w : List Char) (d : Char) (hu : '-' ∉ u)
    (hd : d.isDigit = true) (hw : ∀ x, w.head? = some x → x.isDigit = false)
    (hbr : ']' ∉ u ++ d :: '-' :: w) :
    expand ('[' :: ((u ++ d :: '-' :: w) ++ [']'])) = none := by
  have hhead : (d :: '-' :: w).head? ≠ some '-' := by
    simp only [List.head?_cons, ne_eq, Option.some.injEq]
    exact isDigit_ne_dash d hd
  have hnone : bracketAlts (d :: '-' :: w) = none := by
    cases w with
    | nil => exact bracketAlts_range_end d hd
    | cons x w =>
      rw [bracketAlts_range d x w hd, if_neg]
      rw [hw x rfl]
      simp
  rw [expand_single_class _ hbr, bracketAlts_plain_append u _ hu hhead, hnone]
  rfl

theorem expand_bracket_closed (p : List Char) :
    expand p ≠ none → ∀ a b, p = a ++ '[' :: b → ']' ∈ b := by
  induction p using expand_rec with
  | nil => intro _ a b h; simp at h
  | lit c q h1 h2 ih =>
    intro hne a b h
    have hq : expand q ≠ none := by
      intro hq; apply hne; rw [expand_lit c q h1 h2, hq]; rfl
    cases a with
    | nil => simp at h; exact absurd h.1 h2
    | cons x a =>
      simp only [List.cons_append, List.cons.injEq] at h
      exact ih hq a b h.2
  | popen q hn => intro hne; exact absurd hn hne
  | group s t hs ihs iht =>
    intro hne a b h
    rw [expand_group s t hs] at hne
    have hes : expand s ≠ none := by
      intro h; apply hne; rw [h]; rfl
    have het : expand t ≠ none := by
      intro h; apply hne; rw [h]; cases expand s <;> rfl
    cases a with
    | nil => simp at h
    | cons x a =>
      simp only [List.cons_append, List.cons.injEq] at h
      rcases List.append_eq_append_iff.1 h.2 with ⟨a2, ha, hb⟩ | ⟨c2, ha, hb⟩
      · cases a2 with
        | nil => simp at hb
        | cons y a2 =>
          simp only [List.cons_append, List.cons.injEq] at hb
          exact iht het a2 b hb.2
      · cases c2 with
        | nil => simp at hb
        | cons y c2 =>
          simp only [List.cons_append, List.cons.injEq] at hb
          obtain ⟨rfl, rfl⟩ := hb
          have := ihs hes a c2 ha
          simp [this]
  | bopen q hq => intro hne; exact absurd (expand_bracket_open q hq) hne
  | cls s t hs iht =>
    intro hne a b h
    rw [expand_class s t hs] at hne
    have het : expand t ≠ none := by
      intro h; apply hne; rw [h]; cases bracketLoop s ['('] <;> rfl
    cases a with
    | nil =>
      simp only [List.nil_append, List.cons.injEq, true_and] at h
      rw [← h]; simp
    | cons x a =>
      simp only [List.cons_append, List.cons.injEq] at h
      rcases List.append_eq_append_iff.1 h.2 with ⟨a2, ha, hb⟩ | ⟨c2, ha, hb⟩
      · cases a2 with
        | nil => simp at hb
        | cons y a2 =>
          simp only [List.cons_append, List.cons.injEq] at hb
          exact iht het a2 b hb.2
      · cases c2 with
        | nil => simp at hb
        | cons y c2 =>
          simp only [List.cons_append, List.cons.injEq] at hb
          obtain ⟨rfl, rfl⟩ := hb
          simp

theorem bracketScan_append (st : Bool) (a b : List Char) :
    bracketScan st (a ++ b) = (bracketScan st a).bind fun r => bracketScan r b := by
  induction a generalizing st with
  | nil => simp [bracketScan]
  | cons c a ih =>
    cases st <;> simp only [List.cons_append, bracketScan] <;> split_ifs <;> simp [ih]

theorem bracketScan_open (s : List Char) (st : Bool) (h : bracketScan st s = some true) :
    (st = true ∧ ']' ∉ s) ∨ ∃ a b, s = a ++ '[' :: b ∧ ']' ∉ b := by
  induction s generalizing st with
  | nil => simp [bracketScan] at h; left; exact ⟨h, by simp⟩
  | cons c s ih =>
    cases st with
    | false =>
      right
      simp only [bracketScan] at h
      split_ifs at h with h1 h2
      · subst h1
        rcases ih true h with ⟨-, hs⟩ | ⟨a, b, rfl, hb⟩
        · exact ⟨[], s, rfl, hs⟩
        · exact ⟨'[' :: a, b, rfl, hb⟩
      · rcases ih false h with ⟨hf, -⟩ | ⟨a, b, rfl, hb⟩
        · cases hf
        · exact ⟨c :: a, b, rfl, hb⟩
    | true =>
      simp only [bracketScan] at h
      split_ifs at h with h1 h2
      · right
        rcases ih false h with ⟨hf, -⟩ | ⟨a, b, rfl, hb⟩
        · cases hf
        · exact ⟨c :: a, b, rfl, hb⟩
      · rcases ih true h with ⟨-, hs⟩ | ⟨a, b, rfl, hb⟩
        · left
          refine ⟨rfl, ?_⟩
          simp only [List.mem_cons, not_or]
          exact ⟨fun h => h1 h.symm, hs⟩
        · right; exact ⟨c :: a, b, rfl, hb⟩

theorem bracketScan_class (s : List Char) (r : Bool) (hs : ']' ∉ s)
    (h : bracketScan true s = some r) : '[' ∉ s ∧ r = true := by
  induction s with
  | nil => simp [bracketScan] at h; exact ⟨by simp, h⟩
  | cons c s ih =>
    simp only [List.mem_cons, not_or] at hs
    simp only [bracketScan] at h
    split_ifs at h with h1 h2
    · exact absurd h1.symm hs.1
    · have := ih hs.2 h
      refine ⟨?_, this.2⟩
      simp only [List.mem_cons, not_or]
      exact ⟨fun h => h2 h.symm, this.1⟩

theorem mem_sepAlts (c : Char) (ts : List (List Char)) (h : c ∈ sepAlts ts) :
    c = '|' ∨ c ∈ ts.flatten := by
  induction ts with
  | nil => simp [sepAlts] at h
  | cons tok ts ih =>
    simp only [sepAlts, List.map_cons, List.flatten_cons, List.cons_append, List.mem_cons,
      List.mem_append] at h ih ⊢
    rcases h with h | h | h
    · exact Or.inl h
    · exact Or.inr (Or.inl h)
    · rcases ih h with h | h
      · exact Or.inl h
      · exact Or.inr (Or.inr h)

theorem mem_joinAlts (c : Char) (ts : List (List Char)) (h : c ∈ joinAlts ts) :
    c = '|' ∨ c ∈ ts.flatten := by
  cases ts with
  | nil => simp [joinAlts] at h
  | cons tok ts =>
    simp only [joinAlts, List.mem_append, List.flatten_cons] at h ⊢
    rcases h with h | h
    · exact Or.inr (Or.inl h)
    · rcases mem_sepAlts c ts h with h | h
      · exact Or.inl h
      · exact Or.inr (Or.inr h)

theorem expand_no_brackets (p : List Char) :
    bracketsPaired p → ∀ e, expand p = some e → '[' ∉ e ∧ ']' ∉ e := by
  unfold bracketsPaired
  induction p using expand_rec with
  | nil => intro _ e h; rw [expand_nil] at h; cases h; simp
  | lit c q h1 h2 ih =>
    intro hp e h
    simp only [bracketScan, h2, if_false] at hp
    split_ifs at hp with h3
    rw [expand_lit c q h1 h2] at h
    cases hq : expand q with
    | none => simp [hq] at h
    | some eq =>
      simp [hq] at h
      subst h
      have := ih hp eq hq
      simp only [List.mem_cons, not_or]
      exact ⟨⟨fun h => h2 h.symm, this.1⟩, ⟨fun h => h3 h.symm, this.2⟩⟩
  | popen q hn => intro _ e h; rw [hn] at h; cases h
  | group s t hs ihs iht =>
    intro hp e h
    rw [expand_group s t hs] at h
    cases h1 : expand s with
    | none => simp [h1] at h
    | some es =>
      cases h2 : expand t with
      | none => simp [h1, h2] at h
      | some et =>
        simp [h1, h2] at h
        subst h
        have hp1 : bracketScan false (s ++ ')' :: t) = some false := by
          simpa [bracketScan] using hp
        rw [bracketScan_append] at hp1
        cases hss : bracketScan false s with
        | none => simp [hss] at hp1
        | some r =>
          cases r with
          | true =>
            rcases bracketScan_open s false hss with ⟨hf, -⟩ | ⟨a, b, hab, hb⟩
            · cases hf
            · exact absurd (expand_bracket_closed s (by rw [h1]; simp) a b hab) hb
          | false =>
            have hpt : bracketScan false t = some false := by
              simpa [hss, bracketScan] using hp1
            have r1 := ihs hss es h1
            have r2 := iht hpt et h2
            simp only [List.mem_cons, List.mem_append, not_or]
            exact ⟨⟨by decide, r1.1, by decide, r2.1⟩, ⟨by decide, r1.2, by decide, r2.2⟩⟩
  | bopen q hq => intro _ e h; rw [expand_bracket_open q hq] at h; cases h
  | cls s t hs iht =>
    intro hp e h
    rw [expand_class s t hs, bracketLoop_open] at h
    cases h1 : bracketAlts s with
    | none => simp [h1] at h
    | some ts =>
      cases h2 : expand t with
      | none => simp [h1, h2] at h
      | some et =>
        simp [h1, h2] at h
        subst h
        have hp1 : bracketScan true (s ++ ']' :: t) = some false := by
          simpa [bracketScan] using hp
        rw [bracketScan_append] at hp1
        cases hss : bracketScan true s with
        | none => simp [hss] at hp1
        | some r =>
          obtain ⟨hno, rfl⟩ := bracketScan_class s r hs hss
          have hpt : bracketScan false t = some false := by
            simpa [hss, bracketScan] using hp1
          have r2 := iht hpt et h2
          have hfl := bracketAlts_flatten s ts h1
          have hj : ∀ c, c ∈ joinAlts ts → c = '|' ∨ c ∈ s := by
            intro c hc
            have := mem_joinAlts c ts hc
            rwa [hfl] at this
          simp only [List.mem_cons, List.mem_append, not_or]
          refine ⟨⟨by decide, ?_, by decide, r2.1⟩, ⟨by decide, ?_, by decide, r2.2⟩⟩
          · intro hc
            rcases hj _ hc with h | h
            · exact absurd h (by decide)
            · exact hno h
          · intro hc
            rcases hj _ hc with h | h
            · exact absurd h (by decide)
            · exact hs h

theorem expand_append (a : List Char) :
    ∀ x, expand a = some x → ∀ b, expand (a ++ b) = (expand b).map (x ++ ·) := by
  induction a using expand_rec with
  | nil => intro x h b; rw [expand_nil] at h; cases h; simp
  | lit c q h1 h2 ih =>
    intro x h b
    rw [expand_lit c q h1 h2] at h
    cases hq : expand q with
    | none => simp [hq] at h
    | some eq =>
      simp [hq] at h
      subst h
      rw [List.cons_append, expand_lit c _ h1 h2, ih eq hq b]
      cases expand b <;> simp
  | popen q hn => intro x h; rw [hn] at h; cases h
  | group s t hs ihs iht =>
    intro x h b
    rw [expand_group s t hs] at h
    cases h1 : expand s with
    | none => simp [h1] at h
    | some es =>
      cases h2 : expand t with
      | none => simp [h1, h2] at h
      | some et =>
        simp [h1, h2] at h
        subst h
        have e1 : '(' :: (s ++ ')' :: t) ++ b = '(' :: (s ++ ')' :: (t ++ b)) := by simp
        rw [e1, expand_group s _ hs, h1, iht et h2 b]
        cases expand b <;> simp
  | bopen q hq => intro x h; rw [expand_bracket_open q hq] at h; cases h
  | cls s t hs iht =>
    intro x h b
    rw [expand_class s t hs] at h
    cases h1 : bracketLoop s ['('] with
    | none => simp [h1] at h
    | some sub =>
      cases h2 : expand t with
      | none => simp [h1, h2] at h
      | some et =>
        simp [h1, h2] at h
        subst h
        have e1 : '[' :: (s ++ ']' :: t) ++ b = '[' :: (s ++ ']' :: (t ++ b)) := by simp
        rw [e1, expand_class s _ hs, h1, iht et h2 b]
        cases expand b <;> simp

theorem expand_plain (y : List Char) (h1 : '(' ∉ y) (h2 : '[' ∉ y) : expand y = some y := by
  induction y with
  | nil => exact expand_nil
  | cons c y ih =>
    simp only [List.mem_cons, not_or] at h1 h2
    rw [expand_lit c y (Ne.symm h1.1) (Ne.symm h2.1), ih h1.2 h2.2]
    rfl

theorem depthRun_append (d : Nat) (a b : List Char) :
    depthRun d (a ++ b) = (depthRun d a).bind fun r => depthRun r b := by
  induction a generalizing d with
  | nil => simp [depthRun]
  | cons c a ih =>
    simp only [List.cons_append, depthRun]
    split_ifs <;> simp [ih]

theorem depthRun_no_open (x : List Char) (d : Nat) (h : '(' ∉ x) :
    depthRun d x = if x.count ')' ≤ d then some (d - x.count ')') else none := by
  induction x generalizing d with
  | nil => simp [depthRun]
  | cons c x ih =>
    simp only [List.mem_cons, not_or] at h
    by_cases hc : c = ')'
    · subst hc
      simp only [depthRun, if_true, List.count_cons_self]
      by_cases hd : d > 0
      · rw [if_pos hd, ih (d - 1) h.2]
        by_cases hle : x.count ')' ≤ d - 1
        · rw [if_pos hle, if_pos (by omega)]; congr 1; omega
        · rw [if_neg hle, if_neg (by omega)]
      · rw [if_neg hd, if_neg (by omega)]
    · have ho : ¬ c = '(' := fun h1 => h.1 h1.symm
      simp only [depthRun, hc, ho, if_false, List.count_cons_of_ne (Ne.symm hc)]
      exact ih d h.2

theorem depthRun_filter (x : List Char) (d : Nat) :
    depthRun d (x.filter fun c => c == '(' || c == ')') = depthRun d x := by
  induction x generalizing d with
  | nil => rfl
  | cons c x ih =>
    by_cases hc : c = ')'
    · subst hc
      simp only [List.filter_cons, depthRun]
      simp [depthRun, ih]
    · by_cases ho : c = '('
      · subst ho
        simp [List.filter_cons, depthRun, ih]
      · simp [List.filter_cons, depthRun, hc, ho, ih]

theorem filter_sepAlts (f : Char → Bool) (hf : f '|' = false) (ts : List (List Char)) :
    (sepAlts ts).filter f = ts.flatten.filter f := by
  induction ts with
  | nil => rfl
  | cons tok ts ih =>
    simp only [sepAlts, List.map_cons, List.flatten_cons] at ih ⊢
    simp [List.filter_cons, hf, ih]

theorem filter_joinAlts (f : Char → Bool) (hf : f '|' = false) (ts : List (List Char)) :
    (joinAlts ts).filter f = ts.flatten.filter f := by
  cases ts with
  | nil => rfl
  | cons tok ts =>
    simp only [joinAlts, List.flatten_cons, List.filter_append, filter_sepAlts f hf]

theorem depthRun_joinAlts (s : List Char) (ts : List (List Char)) (d : Nat)
    (h : bracketAlts s = some ts) : depthRun d (joinAlts ts) = depthRun d s := by
  rw [← depthRun_filter (joinAlts ts), ← depthRun_filter s,
    filter_joinAlts _ (by decide), bracketAlts_flatten s ts h]

theorem classesPlain_inside (t : List Char) (h : classesPlain true t = true) :
    classesPlain false t = true := by
  induction t with
  | nil => rfl
  | cons c t ih =>
    simp only [classesPlain] at h ⊢
    split_ifs at h with h1
    · subst h1; simpa using h
    · simp only [Bool.and_eq_true, bne_iff_ne, ne_eq] at h
      have : (c == '[') = false := by simpa using h.1.2
      rw [this]
      exact ih h.2

theorem classesPlain_right (a b : List Char) (st : Bool)
    (h : classesPlain st (a ++ b) = true) : classesPlain false b = true := by
  induction a generalizing st with
  | nil =>
    cases st with
    | false => simpa using h
    | true => exact classesPlain_inside b (by simpa using h)
  | cons c a ih =>
    cases st with
    | false =>
      simp only [List.cons_append, classesPlain] at h
      exact ih _ h
    | true =>
      simp only [List.cons_append, classesPlain] at h
      split_ifs at h with h1
      · exact ih _ h
      · simp only [Bool.and_eq_true] at h
        exact ih _ h.2

theorem classesPlain_left (a b : List Char) (st : Bool)
    (h : classesPlain st (a ++ b) = true) : classesPlain st a = true := by
  induction a generalizing st with
  | nil => simp [classesPlain]
  | cons c a ih =>
    cases st with
    | false =>
      simp only [List.cons_append, classesPlain] at h ⊢
      exact ih _ h
    | true =>
      simp only [List.cons_append, classesPlain] at h ⊢
      split_ifs at h ⊢ with h1
      · exact ih _ h
      · simp only [Bool.and_eq_true] at h ⊢
        exact ⟨h.1, ih _ h.2⟩

theorem classesPlain_class (s t : List Char) (hs : ']' ∉ s)
    (h : classesPlain true (s ++ ']' :: t) = true) :
    '(' ∉ s ∧ '[' ∉ s ∧ classesPlain false t = true := by
  induction s with
  | nil => simpa [classesPlain] using h
  | cons c s ih =>
    simp only [List.mem_cons, not_or] at hs
    simp only [List.cons_append, classesPlain] at h
    rw [if_neg (fun h1 => hs.1 h1.symm)] at h
    simp only [Bool.and_eq_true, bne_iff_ne, ne_eq] at h
    obtain ⟨r1, r2, r3⟩ := ih hs.2 h.2
    simp only [List.mem_cons, not_or]
    exact ⟨⟨fun h1 => h.1.1 h1.symm, r1⟩, ⟨fun h1 => h.1.2 h1.symm, r2⟩, r3⟩

theorem expand_depthRun (p : List Char) :
    classesPlain false p = true → ∀ e, expand p = some e →
      ∀ d, depthRun d e = depthRun d p := by
  induction p using expand_rec with
  | nil => intro _ e h d; rw [expand_nil] at h; cases h; rfl
  | lit c q h1 h2 ih =>
    intro hp e h d
    have hq1 : classesPlain false q = true := classesPlain_right [c] q false hp
    rw [expand_lit c q h1 h2] at h
    cases hq : expand q with
    | none => simp [hq] at h
    | some eq =>
      simp [hq] at h
      subst h
      simp only [depthRun]
      split_ifs <;> first | rfl | exact ih hq1 eq hq _
  | popen q hn => intro _ e h; rw [hn] at h; cases h
  | group s t hs ihs iht =>
    intro hp e h d
    have hps : classesPlain false s = true :=
      classesPlain_left s (')' :: t) false (classesPlain_right ['('] _ false hp)
    have hpt : classesPlain false t = true :=
      classesPlain_right ('(' :: (s ++ [')'])) t false (by simpa using hp)
    rw [expand_group s t hs] at h
    cases h1 : expand s with
    | none => simp [h1] at h
    | some es =>
      cases h2 : expand t with
      | none => simp [h1, h2] at h
      | some et =>
        simp [h1, h2] at h
        subst h
        have e1 : depthRun d ('(' :: (es ++ ')' :: et)) = depthRun (d + 1) (es ++ ')' :: et) := by
          simp [depthRun]
        have e2 : depthRun d ('(' :: (s ++ ')' :: t)) = depthRun (d + 1) (s ++ ')' :: t) := by
          simp [depthRun]
        rw [e1, e2, depthRun_append, depthRun_append, ihs hps es h1]
        cases depthRun (d + 1) s with
        | none => rfl
        | some r =>
          simp only [Option.some_bind, depthRun, if_true]
          split_ifs
          · exact iht hpt et h2 _
          · rfl
  | bopen q hq => intro _ e h; rw [expand_bracket_open q hq] at h; cases h
  | cls s t hs iht =>
    intro hp e h d
    obtain ⟨hno, -, hpt⟩ := classesPlain_class s t hs (by simpa [classesPlain] using hp)
    rw [expand_class s t hs, bracketLoop_open] at h
    cases h1 : bracketAlts s with
    | none => simp [h1] at h
    | some ts =>
      cases h2 : expand t with
      | none => simp [h1, h2] at h
      | some et =>
        simp [h1, h2] at h
        subst h
        have e1 : depthRun d ('(' :: (joinAlts ts ++ ')' :: et)) =
            depthRun (d + 1) (joinAlts ts ++ ')' :: et) := by
          simp [depthRun]
        have e2 : depthRun d ('[' :: (s ++ ']' :: t)) = depthRun d (s ++ ']' :: t) := by
          simp [depthRun]
        have e3 : ∀ r, depthRun r (']' :: t) = depthRun r t := by
          intro r; simp [depthRun]
        have e4 : ∀ r, depthRun r (')' :: et) =
            if r > 0 then depthRun (r - 1) t else none := by
          intro r
          simp only [depthRun, if_true]
          split_ifs
          · exact iht hpt et h2 _
          · rfl
        rw [e1, e2, depthRun_append, depthRun_append, depthRun_joinAlts s ts _ h1,
          depthRun_no_open s _ hno, depthRun_no_open s _ hno]
        by_cases hle : s.count ')' ≤ d
        · rw [if_pos hle, if_pos (by omega)]
          simp only [Option.some_bind, e3, e4]
          rw [if_pos (by omega)]
          congr 1
          omega
        · rw [if_neg hle]
          by_cases hle1 : s.count ')' ≤ d + 1
          · rw [if_pos hle1]
            simp only [Option.some_bind, Option.none_bind, e4]
            rw [if_neg (by omega)]
          · rw [if_neg hle1]
            rfl

theorem expand_paren_plain (y : List Char) (h1 : '(' ∉ y) (h2 : '[' ∉ y) (h3 : ')' ∈ y) :
    expand ('(' :: y) = some ('(' :: y) := by
  obtain ⟨a, b, rfl, ha⟩ := List.eq_append_cons_of_mem h3
  have ha1 : '(' ∉ a := fun h => h1 (by simp [h])
  have ha2 : '[' ∉ a := fun h => h2 (by simp [h])
  have hb1 : '(' ∉ b := fun h => h1 (by simp [h])
  have hb2 : '[' ∉ b := fun h => h2 (by simp [h])
  have hd : depthRun 0 a = some 0 := by
    rw [depthRun_no_open a 0 ha1, List.count_eq_zero_of_not_mem ha]
    simp
  rw [expand_group a b hd, expand_plain a ha1 ha2, expand_plain b hb1 hb2]
  rfl

theorem expand_idem (p : List Char) :
    classesPlain false p = true → ∀ e, expand p = some e → expand e = some e := by
  induction p using expand_rec with
  | nil => intro _ e h; rw [expand_nil] at h; cases h; exact expand_nil
  | lit c q h1 h2 ih =>
    intro hp e h
    have hq1 : classesPlain false q = true := classesPlain_right [c] q false hp
    rw [expand_lit c q h1 h2] at h
    cases hq : expand q with
    | none => simp [hq] at h
    | some eq =>
      simp [hq] at h
      subst h
      rw [expand_lit c eq h1 h2, ih hq1 eq hq]
      rfl
  | popen q hn => intro _ e h; rw [hn] at h; cases h
  | group s t hs ihs iht =>
    intro hp e h
    have hps : classesPlain false s = true :=
      classesPlain_left s (')' :: t) false (classesPlain_right ['('] _ false hp)
    have hpt : classesPlain false t = true :=
      classesPlain_right ('(' :: (s ++ [')'])) t false (by simpa using hp)
    rw [expand_group s t hs] at h
    cases h1 : expand s with
    | none => simp [h1] at h
    | some es =>
      cases h2 : expand t with
      | none => simp [h1, h2] at h
      | some et =>
        simp [h1, h2] at h
        subst h
        have hbal : depthRun 0 es = some 0 := by
          rw [expand_depthRun s hps es h1 0]; exact hs
        rw [expand_group es et hbal, ihs hps es h1, iht hpt et h2]
        rfl
  | bopen q hq => intro _ e h; rw [expand_bracket_open q hq] at h; cases h
  | cls s t hs iht =>
    intro hp e h
    obtain ⟨hno1, hno2, hpt⟩ := classesPlain_class s t hs (by simpa [classesPlain] using hp)
    rw [expand_class s t hs, bracketLoop_open] at h
    cases h1 : bracketAlts s with
    | none => simp [h1] at h
    | some ts =>
      cases h2 : expand t with
      | none => simp [h1, h2] at h
      | some et =>
        simp [h1, h2] at h
        subst h
        have hfl := bracketAlts_flatten s ts h1
        have hj : ∀ c, c ∈ joinAlts ts → c = '|' ∨ c ∈ s := by
          intro c hc
          have := mem_joinAlts c ts hc
          rwa [hfl] at this
        have hy1 : '(' ∉ joinAlts ts ++ [')'] := by
          simp only [List.mem_append, List.mem_singleton, not_or]
          refine ⟨fun hc => ?_, by decide⟩
          rcases hj _ hc with h | h
          · exact absurd h (by decide)
          · exact hno1 h
        have hy2 : '[' ∉ joinAlts ts ++ [')'] := by
          simp only [List.mem_append, List.mem_singleton, not_or]
          refine ⟨fun hc => ?_, by decide⟩
          rcases hj _ hc with h | h
          · exact absurd h (by decide)
          · exact hno2 h
        have hcls := expand_paren_plain (joinAlts ts ++ [')']) hy1 hy2 (by simp)
        have e1 : '(' :: (joinAlts ts ++ ')' :: et) = '(' :: (joinAlts ts ++ [')']) ++ et := by
          simp
        rw [e1, expand_append _ _ hcls et, iht hpt et h2]
        rfl

/-- The body of `expand_parens` run inside the scan loop is `expand_parens` itself: the
bound on the nested call is never reached. -/
theorem expand_parens_with_loop (fuel : Nat) (p ret : List Char) (i : Nat)
    (h : p.length - i ≤ fuel) (hi : i < p.length) :
    expand_parens_with (fun s => expandLoop fuel s 0 []) p ret i = expand_parens p ret i := by
  unfold expand_parens expand_parens_with
  cases gobble p (i + 1) ')' '(' with
  | none => rfl
  | some j =>
    simp only
    rw [expandLoop_eq fuel _ 0 [] (by simp; omega)]
    simp

theorem gobbleLoop_bounds (m mr : Char) (l : List Char) (i d j : Nat)
    (h : gobbleLoop m mr l i d = some j) : i ≤ j ∧ j < i + l.length := by
  induction l generalizing i d with
  | nil => simp [gobbleLoop] at h
  | cons c rest ih =>
    simp only [gobbleLoop] at h
    simp only [List.length_cons]
    have aux : ∀ a b, gobbleLoop m mr rest a b = some j → a ≤ j ∧ j < a + rest.length :=
      fun a b hab => ih a b hab
    split_ifs at h <;>
      first
        | (specialize aux _ _ h; omega)
        | (simp only [Option.some.injEq] at h; omega)

theorem gobble_bounds (p : List Char) (i j : Nat) (m mr : Char)
    (h : gobble p i m mr = some j) : i ≤ j ∧ j < p.length := by
  rw [gobble_eq_loop] at h
  have := gobbleLoop_bounds m mr _ i 0 j h
  simp only [List.length_drop] at this
  omega

theorem expand_bracket_bounds (p ret ret1 : List Char) (i j : Nat)
    (h : expand_bracket p ret i = some (ret1, j)) : i < j ∧ j < p.length := by
  unfold expand_bracket at h
  cases hg : gobble p (i + 1) ']' '\x00' with
  | none => simp [hg] at h
  | some j1 =>
    simp only [hg] at h
    split at h
    · cases h
    · simp only [Option.some.injEq, Prod.mk.injEq] at h
      have := gobble_bounds p (i + 1) j1 _ _ hg
      omega

theorem expand_parens_bounds (p ret ret1 : List Char) (i j : Nat)
    (h : expand_parens p ret i = some (ret1, j)) : i < j ∧ j < p.length := by
  unfold expand_parens expand_parens_with at h
  cases hg : gobble p (i + 1) ')' '(' with
  | none => simp [hg] at h
  | some j1 =>
    simp only [hg] at h
    split at h
    · cases h
    · simp only [Option.some.injEq, Prod.mk.injEq] at h
      have := gobble_bounds p (i + 1) j1 _ _ hg
      omega

theorem substring_shorter (p : List Char) (i j : Nat) (m mr : Char)
    (h : gobble p (i + 1) m mr = some j) :
    ((p.drop (i + 1)).take ((j - i + 1) - 2)).length < p.length := by
  have := gobble_bounds p (i + 1) j m mr h
  simp only [List.length_take, List.length_drop]
  omega

theorem substring_length_le (p : List Char) (i j : Nat) (m mr : Char)
    (h : gobble p (i + 1) m mr = some j) :
    ((p.drop (i + 1)).take ((j - i + 1) - 2)).length + (i + 2) ≤ p.length := by
  have := gobble_bounds p (i + 1) j m mr h
  simp only [List.length_take, List.length_drop]
  omega

theorem expandRun_eq (fuel : Nat) (p : List Char) (i : Nat) (ret : List Char)
    (h : p.length - i < fuel) :
    expandRun fuel p i ret = Outcome.ofOption (expandLoop fuel p i ret) := by
  induction fuel generalizing p i ret with
  | zero => omega
  | succ fuel ih =>
    unfold expandRun expandLoop
    cases hget : p[i]? with
    | none => rfl
    | some c =>
      have hi : i < p.length := by
        by_contra hlt
        rw [List.getElem?_eq_none (by omega)] at hget
        cases hget
      simp only
      split_ifs with h1 h2
      · unfold expand_parens_with
        cases hg : gobble p (i + 1) ')' '(' with
        | none => rfl
        | some j =>
          have hb := gobble_bounds p (i + 1) j _ _ hg
          have hs := substring_length_le p i j _ _ hg
          simp only
          rw [ih (List.take (j - i + 1 - 2) (List.drop (i + 1) p)) 0 [] (by omega)]
          cases hsub : expandLoop fuel (List.take (j - i + 1 - 2) (List.drop (i + 1) p)) 0 [] with
          | none => rfl
          | some subret =>
            simp only [Outcome.ofOption]
            exact ih p (j + 1) _ (by omega)
      · cases hb : expand_bracket p ret i with
        | none => rfl
        | some r =>
          obtain ⟨ret1, j⟩ := r
          have := expand_bracket_bounds p ret ret1 i j hb
          simp only
          exact ih p (j + 1) _ (by omega)
      · exact ih p (i + 1) _ (by omega)

theorem expandRun_terminates (p : List Char) :
    expandRun (p.length + 1) p 0 [] = Outcome.ofOption (expand p) := by
  unfold expand
  exact expandRun_eq _ p 0 [] (by omega)

theorem depthRun_shift (s : List Char) (d r x : Nat) (h : depthRun d s = some r) :
    depthRun (d + x) s = some (r + x) := by
  rw [depthRun_iff] at h ⊢
  obtain ⟨h1, h2⟩ := h
  exact ⟨fun k => by have := h1 k; omega, by omega⟩

theorem depthRun_split (q : List Char) (d : Nat) (h : depthRun (d + 1) q = some 0) :
    ∃ s t, q = s ++ ')' :: t ∧ depthRun 0 s = some 0 ∧ depthRun d t = some 0 := by
  have key : ∀ n q d, q.length = n → depthRun (d + 1) q = some 0 →
      ∃ s t, q = s ++ ')' :: t ∧ depthRun 0 s = some 0 ∧ depthRun d t = some 0 := by
    intro n
    induction n using Nat.strong_induction_on with
    | _ n ih =>
      intro q d hl h
      cases q with
      | nil => simp [depthRun] at h
      | cons c q =>
        simp only [List.length_cons] at hl
        by_cases hc : c = ')'
        · subst hc
          refine ⟨[], q, rfl, rfl, ?_⟩
          simpa [depthRun] using h
        · by_cases ho : c = '('
          · subst ho
            have h1 : depthRun (d + 1 + 1) q = some 0 := by simpa [depthRun] using h
            obtain ⟨s1, t1, rfl, hs1, ht1⟩ := ih q.length (by omega) q (d + 1) rfl h1
            obtain ⟨s2, t2, rfl, hs2, ht2⟩ :=
              ih t1.length (by simp at hl; omega) t1 d rfl ht1
            refine ⟨'(' :: (s1 ++ ')' :: s2), t2, by simp, ?_, ht2⟩
            have e1 : depthRun 0 ('(' :: (s1 ++ ')' :: s2)) = depthRun 1 (s1 ++ ')' :: s2) := by
              simp [depthRun]
            have e2 := depthRun_shift s1 0 0 1 hs1
            simp only [Nat.zero_add] at e2
            rw [e1, depthRun_append, e2]
            simpa [depthRun] using hs2
          · have h1 : depthRun (d + 1) q = some 0 := by simpa [depthRun, hc, ho] using h
            obtain ⟨s1, t1, rfl, hs1, ht1⟩ := ih q.length (by omega) q d rfl h1
            refine ⟨c :: s1, t1, rfl, ?_, ht1⟩
            simpa [depthRun, hc, ho] using hs1
  exact key q.length q d rfl h

theorem expand_balanced (p : List Char) (h1 : '[' ∉ p) (h2 : depthRun 0 p = some 0) :
    expand p = some p := by
  have key : ∀ n p, p.length = n → '[' ∉ p → depthRun 0 p = some 0 → expand p = some p := by
    intro n
    induction n using Nat.strong_induction_on with
    | _ n ih =>
      intro p hl h1 h2
      cases p with
      | nil => exact expand_nil
      | cons c q =>
        simp only [List.length_cons] at hl
        simp only [List.mem_cons, not_or] at h1
        by_cases ho : c = '('
        · subst ho
          have h3 : depthRun (0 + 1) q = some 0 := by simpa [depthRun] using h2
          obtain ⟨s, t, rfl, hs, ht⟩ := depthRun_split q 0 h3
          have hs1 : '[' ∉ s := fun h => h1.2 (by simp [h])
          have ht1 : '[' ∉ t := fun h => h1.2 (by simp [h])
          rw [expand_group s t hs, ih s.length (by simp at hl; omega) s rfl hs1 hs,
            ih t.length (by simp at hl; omega) t rfl ht1 ht]
          rfl
        · by_cases hc : c = ')'
          · subst hc
            simp [depthRun] at h2
          · have h3 : depthRun 0 q = some 0 := by simpa [depthRun, hc, ho] using h2
            rw [expand_lit c q ho (Ne.symm h1.1), ih q.length (by omega) q rfl h1.2 h3]
            rfl
  exact key p.length p rfl h1 h2

theorem nfaLoop_last_bar (l : List Char) (stack : List lnfa) :
    nfaLoop (l ++ ['|']) stack = none := by
  induction l generalizing stack with
  | nil => simp [nfaLoop]
  | cons c l ih =>
    simp only [List.cons_append, nfaLoop]
    split_ifs with h1 h2
    · rfl
    · exact ih _
    · exact ih _

theorem put_cases (buf : List Char) (cap : Nat) (c : Char) :
    put buf cap c = Res.ok (buf ++ [c]) ∨ ∃ a b, put buf cap c = Res.overrun a b := by
  unfold put
  split_ifs
  · exact Or.inl rfl
  · exact Or.inr ⟨_, _, rfl⟩

theorem putAll_cases (buf : List Char) (cap : Nat) (src : List Char) :
    putAll buf cap src = Res.ok (buf ++ src) ∨ ∃ a b, putAll buf cap src = Res.overrun a b := by
  induction src generalizing buf with
  | nil => left; simp [putAll]
  | cons c src ih =>
    unfold putAll
    rcases put_cases buf cap c with h | ⟨a, b, h⟩
    · rw [h]
      simp only [Res.bind]
      rcases ih (buf ++ [c]) with h2 | ⟨a, b, h2⟩
      · left; rw [h2]; simp
      · right; exact ⟨a, b, h2⟩
    · right; rw [h]; exact ⟨a, b, rfl⟩

theorem growTo_cases (grow : Bool) (buf : List Char) (cap newcap : Nat) :
    (∃ c, growTo grow buf cap newcap = Res.ok c) ∨
      ∃ a b, growTo grow buf cap newcap = Res.overrun a b := by
  unfold growTo
  split_ifs
  · exact Or.inl ⟨_, rfl⟩
  · exact Or.inr ⟨_, _, rfl⟩
  · exact Or.inl ⟨_, rfl⟩

theorem bracketCap_single (c : Char) (rest subex : List Char) (cap : Nat)
    (h : ¬ (c.isDigit = true ∧ rest.head? = some '-')) :
    bracketCap (c :: rest) subex cap =
      (growTo (decide (sz (2 * subex.length) > cap)) subex cap
        (sz (3 * subex.length + 1))).bind fun cap1 =>
      (if subex.length - 1 > 0 ∧ subex.length - 1 < subex.length then put subex cap1 '|'
        else Res.ok subex).bind fun subex1 =>
      (put subex1 cap1 c).bind fun subex2 => bracketCap rest subex2 cap1 := by
  conv_lhs => unfold bracketCap
  by_cases hc : c.isDigit = true
  · have : ¬ rest.head? = some '-' := fun h2 => h ⟨hc, h2⟩
    simp [hc, this]
  · simp [hc]

theorem bracketCap_range (c e : Char) (rest3 subex : List Char) (cap : Nat)
    (hc : c.isDigit = true) :
    bracketCap (c :: '-' :: e :: rest3) subex cap =
      (growTo (decide (sz (2 * subex.length) > cap)) subex cap
        (sz (3 * subex.length + 1))).bind fun cap1 =>
      (if subex.length - 1 > 0 ∧ subex.length - 1 < subex.length then put subex cap1 '|'
        else Res.ok subex).bind fun subex1 =>
      if e.isDigit then
        (putAll subex1 cap1 [c, '-', e]).bind fun subex2 => bracketCap rest3 subex2 cap1
      else Res.failure := by
  conv_lhs => unfold bracketCap
  simp [hc]

theorem bracketCap_range_end (c : Char) (subex : List Char) (cap : Nat)
    (hc : c.isDigit = true) :
    bracketCap [c, '-'] subex cap =
      (growTo (decide (sz (2 * subex.length) > cap)) subex cap
        (sz (3 * subex.length + 1))).bind fun cap1 =>
      (if subex.length - 1 > 0 ∧ subex.length - 1 < subex.length then put subex cap1 '|'
        else Res.ok subex).bind fun _ => Res.failure := by
  conv_lhs => unfold bracketCap
  simp [hc]

theorem sep_cases (subex : List Char) (cap : Nat) :
    (if subex.length - 1 > 0 ∧ subex.length - 1 < subex.length then put subex cap '|'
        else Res.ok subex) =
      Res.ok (if subex.length - 1 > 0 ∧ subex.length - 1 < subex.length
        then subex ++ ['|'] else subex) ∨
    ∃ a b, (if subex.length - 1 > 0 ∧ subex.length - 1 < subex.length then put subex cap '|'
        else Res.ok subex) = Res.overrun a b := by
  split_ifs
  · exact put_cases subex cap '|'
  · exact Or.inl rfl

theorem bracketCap_agree (l subex : List Char) (cap : Nat) :
    bracketAgree (bracketCap l subex cap) (bracketLoop l subex) := by
  have key : ∀ n l subex cap, l.length = n →
      bracketAgree (bracketCap l subex cap) (bracketLoop l subex) := by
    intro n
    induction n using Nat.strong_induction_on with
    | _ n ih =>
      intro l subex cap hl
      cases l with
      | nil => simp [bracketCap, bracketLoop, bracketAgree]
      | cons c rest =>
        simp only [List.length_cons] at hl
        rcases bracket_shape c rest with h1 | ⟨hc, e, rest3, rfl⟩ | ⟨hc, rfl⟩
        · rw [bracketCap_single c rest subex cap h1, bracketLoop_single c rest subex h1]
          rcases growTo_cases (decide (sz (2 * subex.length) > cap)) subex cap
            (sz (3 * subex.length + 1)) with ⟨cap1, hg⟩ | ⟨a, b, hg⟩
          · rw [hg]
            simp only [Res.bind]
            rcases sep_cases subex cap1 with hs | ⟨a, b, hs⟩
            · rw [hs]
              simp only [Res.bind]
              rcases put_cases (if subex.length - 1 > 0 ∧ subex.length - 1 < subex.length
                then subex ++ ['|'] else subex) cap1 c with hp | ⟨a, b, hp⟩
              · rw [hp]
                simp only [Res.bind]
                exact ih rest.length (by omega) rest _ cap1 rfl
              · rw [hp]; simp [Res.bind, bracketAgree]
            · rw [hs]; simp [Res.bind, bracketAgree]
          · rw [hg]; simp [Res.bind, bracketAgree]
        · rw [bracketCap_range c e rest3 subex cap hc, bracketLoop_range c e rest3 subex hc]
          rcases growTo_cases (decide (sz (2 * subex.length) > cap)) subex cap
            (sz (3 * subex.length + 1)) with ⟨cap1, hg⟩ | ⟨a, b, hg⟩
          · rw [hg]
            simp only [Res.bind]
            rcases sep_cases subex cap1 with hs | ⟨a, b, hs⟩
            · rw [hs]
              simp only [Res.bind]
              generalize (if subex.length - 1 > 0 ∧ subex.length - 1 < subex.length
                then subex ++ ['|'] else subex) = sb
              by_cases h3 : e.isDigit = true
              · rw [if_pos h3, if_pos h3]
                rcases putAll_cases sb cap1 [c, '-', e] with hp | ⟨a, b, hp⟩
                · rw [hp]
                  simp only [Res.bind]
                  exact ih rest3.length (by simp at hl; omega) rest3 _ cap1 rfl
                · rw [hp]; simp [Res.bind, bracketAgree]
              · rw [if_neg h3, if_neg h3]
                simp [bracketAgree]
            · rw [hs]; simp [Res.bind, bracketAgree]
          · rw [hg]; simp [Res.bind, bracketAgree]
        · rw [bracketCap_range_end c subex cap hc, bracketLoop_range_end c subex hc]
          rcases growTo_cases (decide (sz (2 * subex.length) > cap)) subex cap
            (sz (3 * subex.length + 1)) with ⟨cap1, hg⟩ | ⟨a, b, hg⟩
          · rw [hg]
            simp only [Res.bind]
            rcases sep_cases subex cap1 with hs | ⟨a, b, hs⟩
            · rw [hs]; simp [Res.bind, bracketAgree]
            · rw [hs]; simp [Res.bind, bracketAgree]
          · rw [hg]; simp [Res.bind, bracketAgree]
  exact key l.length l subex cap rfl

theorem expand_bracket_cap_agree (p ret : List Char) (rlen i : Nat) :
    stepAgree (expand_bracket_cap p ret rlen i) (expand_bracket p ret i) := by
  unfold expand_bracket_cap expand_bracket
  cases gobble p (i + 1) ']' '\x00' with
  | none => simp [stepAgree]
  | some j =>
    simp only
    have h0 : put [] (j - i + 1 - 2 + 1) '(' = Res.ok ['('] := by simp [put]
    rw [h0]
    simp only [Res.bind]
    generalize List.take (j - i + 1 - 2) (List.drop (i + 1) p) = substring
    generalize j - i + 1 - 2 + 1 = cap0
    have hb := bracketCap_agree substring ['('] cap0
    cases hr : bracketCap substring ['('] cap0 with
    | overrun a b => simp [Res.bind, stepAgree]
    | timeout => rw [hr] at hb; exact hb.elim
    | failure =>
      rw [hr] at hb
      simp only [bracketAgree] at hb
      simp [Res.bind, stepAgree, hb]
    | ok sc =>
      rw [hr] at hb
      simp only [bracketAgree] at hb
      rw [hb]
      simp only [Res.bind]
      rcases put_cases sc.1 sc.2 ')' with hp | ⟨a, b, hp⟩
      · rw [hp]
        simp only [Res.bind]
        split_ifs
        · rcases growTo_cases (decide (sz (2 * ((sc.1 ++ [')']).length + 1 - 1)) >
            szsub (szsub rlen 1) ret.length)) ret rlen
            (sz (3 * ((sc.1 ++ [')']).length + 1 - 1) + 1)) with ⟨rlen1, hg⟩ | ⟨a, b, hg⟩
          · rw [hg]
            simp only [Res.bind]
            rcases putAll_cases ret rlen1 (sc.1 ++ [')']) with hq | ⟨a, b, hq⟩
            · rw [hq]; simp [Res.bind, stepAgree]
            · rw [hq]; simp [Res.bind, stepAgree]
          · rw [hg]; simp [Res.bind, stepAgree]
        · simp [stepAgree]
      · rw [hp]; simp [Res.bind, stepAgree]

theorem expandCapLoop_agree (fuel : Nat) (p : List Char) (i : Nat) (ret : List Char)
    (rlen : Nat) :
    runAgree (expandCapLoop fuel p i ret rlen) (expandRun fuel p i ret) := by
  induction fuel generalizing p i ret rlen with
  | zero => simp [expandCapLoop, expandRun, runAgree]
  | succ fuel ih =>
    unfold expandCapLoop expandRun
    cases hget : p[i]? with
    | none =>
      simp only
      split_ifs <;> simp [runAgree]
    | some c =>
      simp only
      rcases growTo_cases (decide (sz (2 * ret.length) > rlen)) ret rlen
        (sz (3 * ret.length + 1)) with ⟨rlen1, hg⟩ | ⟨a, b, hg⟩
      · rw [hg]
        simp only [Res.bind]
        split_ifs with h1 h2
        · unfold expand_parens_cap
          cases gobble p (i + 1) ')' '(' with
          | none => simp [Res.bind, runAgree]
          | some j =>
            simp only
            generalize List.take (j - i + 1 - 2) (List.drop (i + 1) p) = substring
            generalize j - i + 1 - 2 + 1 = cap0
            have hsub := ih substring 0 [] cap0
            cases hr : expandCapLoop fuel substring 0 [] cap0 with
            | overrun a b => simp [Res.bind, runAgree]
            | timeout =>
              rw [hr] at hsub
              simp only [runAgree] at hsub
              simp [Res.bind, runAgree, hsub]
            | failure =>
              rw [hr] at hsub
              simp only [runAgree] at hsub
              simp [Res.bind, runAgree, hsub]
            | ok sub =>
              rw [hr] at hsub
              simp only [runAgree] at hsub
              rw [hsub.1]
              simp only [Res.bind]
              rcases growTo_cases (decide (sub.2 - 1 > szsub (szsub rlen1 1) ret.length)) ret
                rlen1 (sz (3 * (sub.2 - 1) + 1)) with ⟨rlen2, hg2⟩ | ⟨a, b, hg2⟩
              · rw [hg2]
                simp only [Res.bind]
                rcases put_cases ret rlen2 '(' with hp | ⟨a, b, hp⟩
                · rw [hp]
                  simp only [Res.bind]
                  rcases putAll_cases (ret ++ ['(']) rlen2 sub.1 with hq | ⟨a, b, hq⟩
                  · rw [hq]
                    simp only [Res.bind]
                    rcases put_cases (ret ++ ['('] ++ sub.1) rlen2 ')' with hp2 | ⟨a, b, hp2⟩
                    · rw [hp2]
                      simp only [Res.bind]
                      exact ih p (j + 1) _ rlen2
                    · rw [hp2]; simp [Res.bind, runAgree]
                  · rw [hq]; simp [Res.bind, runAgree]
                · rw [hp]; simp [Res.bind, runAgree]
              · rw [hg2]; simp [Res.bind, runAgree]
        · have hb := expand_bracket_cap_agree p ret rlen1 i
          cases hr : expand_bracket_cap p ret rlen1 i with
          | overrun a b => simp [Res.bind, runAgree]
          | timeout => rw [hr] at hb; exact hb.elim
          | failure =>
            rw [hr] at hb
            simp only [stepAgree] at hb
            simp [Res.bind, runAgree, hb]
          | ok st =>
            rw [hr] at hb
            simp only [stepAgree] at hb
            rw [hb]
            simp only [Res.bind]
            exact ih p (st.2.2 + 1) st.1 st.2.1
        · rcases put_cases ret rlen1 c with hp | ⟨a, b, hp⟩
          · rw [hp]
            simp only [Res.bind]
            exact ih p (i + 1) _ rlen1
          · rw [hp]; simp [Res.bind, runAgree]
      · rw [hg]; simp [Res.bind, runAgree]

/-- The capacity-tracking run of `expand` and the string-level `expand`: the run leaves
one of its blocks, or it returns what `expand` returns, with `*rlen` one more than the
length of the string; it never reaches the bound on its iterations. -/
theorem expand_cap_refines (p : List Char) (rlen : Nat) :
    (∃ a b, expand_cap p rlen = Res.overrun a b) ∨
      (expand_cap p rlen = Res.failure ∧ expand p = none) ∨
      (∃ e, expand_cap p rlen = Res.ok (e, e.length + 1) ∧ expand p = some e) := by
  have h := expandCapLoop_agree (p.length + 1) p 0 [] rlen
  rw [expandRun_terminates] at h
  unfold expand_cap
  cases hr : expandCapLoop (p.length + 1) p 0 [] rlen with
  | overrun a b => exact Or.inl ⟨a, b, rfl⟩
  | timeout =>
    rw [hr] at h
    simp only [runAgree] at h
    cases hp : expand p <;> simp [hp, Outcome.ofOption] at h
  | failure =>
    rw [hr] at h
    simp only [runAgree] at h
    right; left
    refine ⟨rfl, ?_⟩
    cases hp : expand p with
    | none => rfl
    | some e => simp [hp, Outcome.ofOption] at h
  | ok x =>
    rw [hr] at h
    simp only [runAgree] at h
    right; right
    obtain ⟨e, n⟩ := x
    simp only at h
    refine ⟨e, by rw [h.2], ?_⟩
    cases hp : expand p with
    | none => simp [hp, Outcome.ofOption] at h
    | some e1 =>
      simp only [hp, Outcome.ofOption, Outcome.success.injEq] at h
      rw [h.1]

theorem expand_cap_ok (p e : List Char) (rlen cap : Nat)
    (h : expand_cap p rlen = Res.ok (e, cap)) : expand p = some e := by
  rcases expand_cap_refines p rlen with ⟨a, b, h1⟩ | ⟨h1, -⟩ | ⟨e1, h1, h2⟩
  · rw [h1] at h; cases h
  · rw [h1] at h; cases h
  · rw [h1] at h
    simp only [Res.ok.injEq, Prod.mk.injEq] at h
    rw [← h.1]; exact h2

theorem expand_cap_failure (p : List Char) (rlen : Nat)
    (h : expand_cap p rlen = Res.failure) : expand p = none := by
  rcases expand_cap_refines p rlen with ⟨a, b, h1⟩ | ⟨-, h2⟩ | ⟨e1, h1, -⟩
  · rw [h1] at h; cases h
  · exact h2
  · rw [h1] at h; cases h

theorem expand_cap_of_some (p e : List Char) (rlen : Nat) (h : expand p = some e) :
    (∃ a b, expand_cap p rlen = Res.overrun a b) ∨
      expand_cap p rlen = Res.ok (e, e.length + 1) := by
  rcases expand_cap_refines p rlen with h1 | ⟨-, h2⟩ | ⟨e1, h1, h2⟩
  · exact Or.inl h1
  · rw [h] at h2; cases h2
  · rw [h] at h2
    simp only [Option.some.injEq] at h2
    right; rw [h1, h2]

theorem expand_cap_of_none (p : List Char) (rlen : Nat) (h : expand p = none) :
    (∃ a b, expand_cap p rlen = Res.overrun a b) ∨ expand_cap p rlen = Res.failure := by
  rcases expand_cap_refines p rlen with h1 | ⟨h1, -⟩ | ⟨e1, -, h2⟩
  · exact Or.inl h1
  · exact Or.inr h1
  · rw [h] at h2; cases h2

/-! ## The claims -/

/-- C1, as the code has it. For a pattern `p` in which no character class contains `(`
or `[` (neither occurs between a `[` and the next `]`): when a run of `expand` on `p`
stays inside its buffers and succeeds with output `e`, `expand` applied to `e` never
returns `-1`, and every run of it that stays inside its buffers returns exactly `e`. Runs
that leave a buffer are left out. -/
theorem C1_idempotent_in_bounds (p e : List Char) (rlen cap rlen2 : Nat)
    (hp : classesPlain false p = true) (h : expand_cap p rlen = Res.ok (e, cap)) :
    (∃ a b, expand_cap e rlen2 = Res.overrun a b) ∨
      expand_cap e rlen2 = Res.ok (e, e.length + 1) :=
  expand_cap_of_some e e rlen2 (expand_idem p hp e (expand_cap_ok p e rlen cap h))

/-- Witness for C1: the pattern `x[ab](c)*` with the 11-byte buffer of `main`; both
runs stay inside their buffers. -/
theorem C1_idempotent_in_bounds_witness :
    expand_cap ['x', '[', 'a', 'b', ']', '(', 'c', ')', '*'] 11 =
        Res.ok (['x', '(', 'a', '|', 'b', ')', '(', 'c', ')', '*'], 11) ∧
      expand_cap ['x', '(', 'a', '|', 'b', ')', '(', 'c', ')', '*'] 11 =
        Res.ok (['x', '(', 'a', '|', 'b', ')', '(', 'c', ')', '*'], 11) ∧
      ((∃ a b, expand_cap ['x', '(', 'a', '|', 'b', ')', '(', 'c', ')', '*'] 11 =
          Res.overrun a b) ∨
        expand_cap ['x', '(', 'a', '|', 'b', ')', '(', 'c', ')', '*'] 11 =
          Res.ok (['x', '(', 'a', '|', 'b', ')', '(', 'c', ')', '*'],
            (['x', '(', 'a', '|', 'b', ')', '(', 'c', ')', '*'] : List Char).length + 1)) :=
  ⟨by decide, by decide,
    C1_idempotent_in_bounds ['x', '[', 'a', 'b', ']', '(', 'c', ')', '*'] _ 11 11 11
      (by decide) (by decide)⟩

/-- C1 fails as stated: with the 11-byte buffer of `main`, `expand` succeeds on `[a(]`
with output `(a|()` in a run that stays inside its buffers, and `expand` returns `-1` on
`(a|()`, whose second `(` is never closed. -/
theorem C1_counterexample :
    expand_cap ['[', 'a', '(', ']'] 11 = Res.ok (['(', 'a', '|', '(', ')'], 6) ∧
      expand_cap ['(', 'a', '|', '(', ')'] 11 = Res.failure := by
  decide

/-- C2 does not hold of the code: on the pattern
`(xxxx[c0-9a0-9c]([caaaa][c0-9c])xxxxxxxx)` with the 11-byte buffer of `main`, the nested
call of `expand` on the body runs on a 40-byte buffer and `expand_parens` writes the `)`
of the inner group at index 40 of it, so the run leaves its buffer before the last
eight literal symbols are written. -/
theorem C2_literals_overrun :
    expand_cap ['(', 'x', 'x', 'x', 'x', '[', 'c', '0', '-', '9', 'a', '0', '-', '9', 'c',
        ']', '(', '[', 'c', 'a', 'a', 'a', 'a', ']', '[', 'c', '0', '-', '9', 'c', ']', ')',
        'x', 'x', 'x', 'x', 'x', 'x', 'x', 'x', ')'] 11 = Res.overrun 40 40 := by
  decide

/-- C3 does not hold of the code, with the 11-byte buffer of `main` and the empty `t`.
For the balanced body `s` of ten `a`, `expand` succeeds on `s` inside its buffers and the
run on `"(" ++ s ++ ")"` writes the closing `)` at index 11 of the 11-byte buffer: the
test of `expand_parens` reserves room for the body only. For the balanced body
`s = xxxx[c0-9a0-9c]([caaaa][c0-9c])xxxxxxxx`, `expand` succeeds on `s` inside its
buffers and the run on `"(" ++ s ++ ")"` leaves the 40-byte buffer of the nested call at
the `)` of the inner group. -/
theorem C3_group_overrun :
    (balanced ['a', 'a', 'a', 'a', 'a', 'a', 'a', 'a', 'a', 'a'] ∧
      expand_cap ['a', 'a', 'a', 'a', 'a', 'a', 'a', 'a', 'a', 'a'] 11 =
        Res.ok (['a', 'a', 'a', 'a', 'a', 'a', 'a', 'a', 'a', 'a'], 11) ∧
      expand_cap ('(' :: (['a', 'a', 'a', 'a', 'a', 'a', 'a', 'a', 'a', 'a'] ++ ')' :: []))
        11 = Res.overrun 11 11) ∧
    (balanced ['x', 'x', 'x', 'x', '[', 'c', '0', '-', '9', 'a', '0', '-', '9', 'c',
        ']', '(', '[', 'c', 'a', 'a', 'a', 'a', ']', '[', 'c', '0', '-', '9', 'c', ']', ')',
        'x', 'x', 'x', 'x', 'x', 'x', 'x', 'x'] ∧
      expand_cap ['x', 'x', 'x', 'x', '[', 'c', '0', '-', '9', 'a', '0', '-', '9', 'c',
        ']', '(', '[', 'c', 'a', 'a', 'a', 'a', ']', '[', 'c', '0', '-', '9', 'c', ']', ')',
        'x', 'x', 'x', 'x', 'x', 'x', 'x', 'x'] 11 =
        Res.ok (['x', 'x', 'x', 'x', '(', 'c', '|', '0', '-', '9', '|', 'a', '|', '0', '-',
          '9', '|', 'c', ')', '(', '(', 'c', '|', 'a', '|', 'a', '|', 'a', '|', 'a', ')',
          '(', 'c', '|', '0', '-', '9', '|', 'c', ')', ')', 'x', 'x', 'x', 'x', 'x', 'x',
          'x', 'x'], 50) ∧
      expand_cap ('(' :: (['x', 'x', 'x', 'x', '[', 'c', '0', '-', '9', 'a', '0', '-', '9', 'c',
        ']', '(', '[', 'c', 'a', 'a', 'a', 'a', ']', '[', 'c', '0', '-', '9', 'c', ']', ')',
        'x', 'x', 'x', 'x', 'x', 'x', 'x', 'x'] ++ ')' :: []))
        11 = Res.overrun 40 40) := by
  decide

/-- C4 does not hold of the code: on the one-character class `[a]` the scratch buffer
`subex` has 2 bytes and the closing `)` is written at index 2. -/
theorem C4_class_overrun :
    expand_cap ['[', 'a', ']'] 11 = Res.overrun 2 2 := by
  decide

/-- C5 does not hold of the code: on `[0-9]` the scratch buffer `subex` has 4 bytes and
the closing `)` is written at index 4. -/
theorem C5_range_overrun :
    expand_cap ['[', '0', '-', '9', ']'] 11 = Res.overrun 4 4 := by
  decide

/-- C6. `gobble` finds the matching delimiter: for a start index `i < plen`, a target `m`
and a mask `mr ≠ m` (the pattern being a C string, so without NUL when the mask is the
NUL that disables it), `gobble` succeeds with index `j` exactly when `j` is the least
index `≥ i` with `pattern[j] = m` and as many `mr` as `m` in `pattern[i..j)`; it fails
exactly when there is no such index; with the mask disabled `j` is the first occurrence
of `m` at or after `i`. -/
theorem C6_gobble_matching (pattern : List Char) (i j : Nat) (m mr : Char)
    (_hi : i < pattern.length) (hne : mr ≠ m)
    (hstr : mr = '\x00' → '\x00' ∉ pattern) :
    (gobble pattern i m mr = some j ↔
        gobbleTarget pattern i m mr j ∧ ∀ n, gobbleTarget pattern i m mr n → j ≤ n) ∧
      (gobble pattern i m mr = none ↔ ¬ ∃ n, gobbleTarget pattern i m mr n) ∧
      (gobble pattern i m '\x00' = some j ↔
        i ≤ j ∧ pattern[j]? = some m ∧ ∀ n, i ≤ n → n < j → pattern[n]? ≠ some m) :=
  ⟨gobble_least pattern i j m mr hne hstr, gobble_none_iff pattern i m mr hne hstr,
    gobble_first pattern i j m⟩

/-- Witness for C6: the theorem applied to a concrete pattern. -/
theorem C6_gobble_matching_witness :
    gobble ['(', 'a', '(', 'b', ')', 'c', ')', ')'] 1 ')' '(' = some 6 ∧
      gobbleTarget ['(', 'a', '(', 'b', ')', 'c', ')', ')'] 1 ')' '(' 6 :=
  ⟨by decide,
    ((C6_gobble_matching ['(', 'a', '(', 'b', ')', 'c', ')', ')'] 1 6 ')' '('
      (by decide) (by decide) (by decide)).1.1 (by decide)).1⟩

/-- C8, as the code has it. For a pattern without `[` and `]`, `expand` succeeds only if
no suffix of the pattern has more `(` than `)`, that is, only if every `(` is closed by a
later `)`. -/
theorem C8_open_parens_closed (p e : List Char) (h1 : '[' ∉ p) (_h2 : ']' ∉ p)
    (h : expand p = some e) :
    ∀ k, (p.drop k).count '(' ≤ (p.drop k).count ')' :=
  expand_closed p h1 (by rw [h]; simp)

/-- Witness for C8: the theorem applied to a concrete pattern. -/
theorem C8_open_parens_closed_witness :
    expand ['(', 'a', ')', ')'] = some ['(', 'a', ')', ')'] ∧
      ((['(', 'a', ')', ')'] : List Char).drop 1).count '(' ≤
        ((['(', 'a', ')', ')'] : List Char).drop 1).count ')' :=
  ⟨by decide,
    C8_open_parens_closed ['(', 'a', ')', ')'] ['(', 'a', ')', ')'] (by decide) (by decide)
      (by decide) 1⟩

/-- C8 fails as stated: the pattern `)` has no `[` or `]`, its parentheses are not
balanced, and `expand` succeeds on it, copying the `)` through. -/
theorem C8_counterexample :
    '[' ∉ [')'] ∧ ']' ∉ [')'] ∧ expand [')'] = some [')'] ∧ ¬ balanced [')'] := by
  decide

/-- C9, as the code has it. For a bracket class `"[" ++ s ++ "]"` (`s` without `]`) whose
first `-`, at index `q + 1` of `s`, is immediately preceded by a decimal digit and is not
immediately followed by a decimal digit, `expand` fails. -/
theorem C9_first_dash_range_end (s : List Char) (q : Nat) (d : Char) (hs : ']' ∉ s)
    (hfirst : '-' ∉ s.take q) (hd : s[q]? = some d) (hdigit : d.isDigit = true)
    (hdash : s[q + 1]? = some '-')
    (hnext : ∀ x, s[q + 2]? = some x → x.isDigit = false) :
    expand ('[' :: (s ++ [']'])) = none := by
  have hq : q < s.length := by
    by_contra hlt
    rw [List.getElem?_eq_none (by omega)] at hd
    cases hd
  have hq1 : q + 1 < s.length := by
    by_contra hlt
    rw [List.getElem?_eq_none (by omega)] at hdash
    cases hdash
  have e1 : s.drop q = d :: s.drop (q + 1) := by
    rw [List.drop_eq_getElem_cons hq]
    congr 1
    rw [List.getElem?_eq_getElem hq] at hd
    exact Option.some.inj hd
  have e2 : s.drop (q + 1) = '-' :: s.drop (q + 2) := by
    rw [List.drop_eq_getElem_cons hq1]
    congr 1
    rw [List.getElem?_eq_getElem hq1] at hdash
    exact Option.some.inj hdash
  have e3 : s = s.take q ++ d :: '-' :: s.drop (q + 2) := by
    rw [← e2, ← e1, List.take_append_drop]
  have hw : ∀ x, (s.drop (q + 2)).head? = some x → x.isDigit = false := by
    intro x hx
    apply hnext x
    rw [← hx, List.head?_drop]
  have := bracket_bad_range (s.take q) (s.drop (q + 2)) d hfirst hdigit hw (by rw [← e3]; exact hs)
  rw [← e3] at this
  exact this

/-- Witness for C9: the theorem applied to a concrete pattern. -/
theorem C9_first_dash_range_end_witness :
    expand ['[', 'a', '0', '-', 'z', ']'] = none :=
  C9_first_dash_range_end ['a', '0', '-', 'z'] 1 '0' (by decide) (by decide) (by decide)
    (by decide) (by decide) (by decide)

/-- C9 fails as stated: in the class `[a-z]` the `-` is not preceded by a decimal digit,
and `expand` succeeds, making the `-` an alternative of its own. -/
theorem C9_counterexample :
    ']' ∉ ['a', '-', 'z'] ∧ Char.isDigit 'a' = false ∧
      expand ['[', 'a', '-', 'z', ']'] = some ['(', 'a', '|', '-', '|', 'z', ')'] := by
  decide

/-- C10, as the code has it. For a pattern `p` whose square brackets are properly paired
(every `[` is followed by a `]` before the next `[`, every `]` closes a `[`), when
`expand` succeeds the output contains no `[` and no `]`. -/
theorem C10_paired_brackets_removed (p e : List Char) (hp : bracketsPaired p)
    (h : expand p = some e) : '[' ∉ e ∧ ']' ∉ e :=
  expand_no_brackets p hp e h

/-- Witness for C10: the theorem applied to a concrete pattern. -/
theorem C10_paired_brackets_removed_witness :
    expand ['(', '[', 'a', 'b', ']', ')', '[', '0', '-', '9', ']'] =
        some ['(', '(', 'a', '|', 'b', ')', ')', '(', '0', '-', '9', ')'] ∧
      '[' ∉ ['(', '(', 'a', '|', 'b', ')', ')', '(', '0', '-', '9', ')'] ∧
      ']' ∉ ['(', '(', 'a', '|', 'b', ')', ')', '(', '0', '-', '9', ')'] :=
  ⟨by decide,
    C10_paired_brackets_removed ['(', '[', 'a', 'b', ']', ')', '[', '0', '-', '9', ']'] _
      (by decide) (by decide)⟩

/-- C10 fails as stated: `expand` succeeds on the pattern `]` and its output is `]`. -/
theorem C10_counterexample :
    expand [']'] = some [']'] ∧ ']' ∈ [']'] := by
  decide

/-- C11 does not hold of the code: the pattern `aaaa(xxxxxxx)(yyyyyyyyyyyyyyyyyyyyyyyyyy)`
has no `[` or `]` and balanced parentheses, and with the 11-byte buffer of `main` the
run writes the `)` of the second group at index 40 of the buffer, grown to 40 bytes. -/
theorem C11_canonical_overrun :
    balanced ['a', 'a', 'a', 'a', '(', 'x', 'x', 'x', 'x', 'x', 'x', 'x', ')', '(', 'y', 'y',
        'y', 'y', 'y', 'y', 'y', 'y', 'y', 'y', 'y', 'y', 'y', 'y', 'y', 'y', 'y', 'y', 'y',
        'y', 'y', 'y', 'y', 'y', 'y', 'y', ')'] ∧
      expand_cap ['a', 'a', 'a', 'a', '(', 'x', 'x', 'x', 'x', 'x', 'x', 'x', ')', '(', 'y',
        'y', 'y', 'y', 'y', 'y', 'y', 'y', 'y', 'y', 'y', 'y', 'y', 'y', 'y', 'y', 'y', 'y',
        'y', 'y', 'y', 'y', 'y', 'y', 'y', 'y', ')'] 11 = Res.overrun 40 40 := by
  decide

/-- C12 does not hold of the code: `nfa_create` returns NULL on the well-formed canonical
patterns `ab`, `a*` and `(ab)*`. On `ab` two fragments are left on the stack, and a
final `*` is rejected by the guard of the `|` case it falls through into. -/
theorem C12_well_formed_rejected :
    nfa_create ['a', 'b'] = none ∧ nfa_create ['a', '*'] = none ∧
      nfa_create ['(', 'a', 'b', ')', '*'] = none ∧
      nfaLoop ['a', 'b'] stack_create =
        some [lnfa.mk ['b'] [none] 1, lnfa.mk ['a'] [none] 1] :=
  ⟨rfl, rfl, rfl, rfl⟩

/-- C13. Literal fragment: on a one-character pattern `c`, with `c` neither `*` nor `|`,
`nfa_create` succeeds and returns a fragment with exactly one transition, labelled `c`. -/
theorem C13_literal_fragment (c : Char) (h1 : c ≠ '*') (h2 : c ≠ '|') :
    nfa_create [c] = some (lnfa.mk [c] [none] 1) ∧
      (nfa_create [c]).map lnfa.len = some 1 ∧
      (nfa_create [c]).map lnfa.match_item = some [c] := by
  have h : nfa_create [c] = some (lnfa.mk [c] [none] 1) := by
    simp [nfa_create, nfaLoop, h1, h2, stack_create, stack_push, stack_getsize, stack_pop]
  rw [h]
  exact ⟨rfl, rfl, rfl⟩

/-- Witness for C13: the pattern `a`. -/
theorem C13_literal_fragment_witness :
    nfa_create ['a'] = some (lnfa.mk ['a'] [none] 1) ∧
      (nfa_create ['a']).map lnfa.len = some 1 ∧
      (nfa_create ['a']).map lnfa.match_item = some ['a'] :=
  C13_literal_fragment 'a' (by decide) (by decide)

/-- C14. `nfa_create` returns NULL on the empty pattern: the loop leaves the stack as it
was created, of size 0, which is not 1. -/
theorem C14_empty_pattern_rejected :
    nfa_create [] = none ∧ nfaLoop [] stack_create = some stack_create ∧
      stack_getsize stack_create = 0 :=
  ⟨rfl, rfl, rfl⟩

/-- C15. `nfa_create` returns NULL on every pattern whose last character is `|`. -/
theorem C15_trailing_union_rejected (p : List Char) (h : p.getLast? = some '|') :
    nfa_create p = none := by
  obtain ⟨l, rfl⟩ := List.getLast?_eq_some_iff.1 h
  simp [nfa_create, nfaLoop_last_bar]

/-- Witness for C15: the pattern `a|`. -/
theorem C15_trailing_union_rejected_witness : nfa_create ['a', '|'] = none :=
  C15_trailing_union_rejected ['a', '|'] (by decide)

/-- C16. A truncated or non-digit range end is rejected: for `u` without `]` and `-`, a
decimal digit `d`, and `w` without `]` that is empty or starts with a non-digit,
`expand ("[" ++ u ++ d ++ "-" ++ w ++ "]")` fails. -/
theorem C16_range_end_rejected (u w : List Char) (d : Char) (hu1 : ']' ∉ u)
    (hu2 : '-' ∉ u) (hd : d.isDigit = true) (hw1 : ']' ∉ w)
    (hw2 : w = [] ∨ ∃ x rest, w = x :: rest ∧ x.isDigit = false) :
    expand ('[' :: ((u ++ d :: '-' :: w) ++ [']'])) = none := by
  have hbr : ']' ∉ u ++ d :: '-' :: w := by
    have h3 : d ≠ ']' := by rintro rfl; exact absurd hd (by decide)
    simp only [List.mem_append, List.mem_cons, not_or]
    exact ⟨hu1, Ne.symm h3, by decide, hw1⟩
  refine bracket_bad_range u w d hu2 hd ?_ hbr
  intro x hx
  rcases hw2 with rfl | ⟨y, rest, rfl, hy⟩
  · simp at hx
  · simp only [List.head?_cons, Option.some.injEq] at hx
    rw [← hx]; exact hy

/-- Witness for C16: the truncated range of `[a0-]` and the non-digit end of `[0-a]`. -/
theorem C16_range_end_rejected_witness :
    expand ['[', 'a', '0', '-', ']'] = none ∧ expand ['[', '0', '-', 'a', ']'] = none :=
  ⟨C16_range_end_rejected ['a'] [] '0' (by decide) (by decide) (by decide) (by decide)
      (Or.inl rfl),
    C16_range_end_rejected [] ['a'] '0' (by decide) (by decide) (by decide) (by decide)
      (Or.inr ⟨'a', [], rfl, by decide⟩)⟩

/-- C17 does not hold of the code: with the 11-byte buffer of `main`, `expand` succeeds
inside its buffers on `a = aaaa(xxxxxxx)` and on `b = (yyyyyyyyyyyyyyyyyyyyyyyyyy)`, and
the run on `a ++ b` writes the `)` of the second group at index 40 of the buffer, grown
to 40 bytes. -/
theorem C17_concat_overrun :
    expand_cap ['a', 'a', 'a', 'a', '(', 'x', 'x', 'x', 'x', 'x', 'x', 'x', ')'] 11 =
        Res.ok (['a', 'a', 'a', 'a', '(', 'x', 'x', 'x', 'x', 'x', 'x', 'x', ')'], 14) ∧
      expand_cap ['(', 'y', 'y', 'y', 'y', 'y', 'y', 'y', 'y', 'y', 'y', 'y', 'y', 'y', 'y',
        'y', 'y', 'y', 'y', 'y', 'y', 'y', 'y', 'y', 'y', 'y', 'y', ')'] 11 =
        Res.ok (['(', 'y', 'y', 'y', 'y', 'y', 'y', 'y', 'y', 'y', 'y', 'y', 'y', 'y', 'y',
          'y', 'y', 'y', 'y', 'y', 'y', 'y', 'y', 'y', 'y', 'y', 'y', ')'], 29) ∧
      expand_cap (['a', 'a', 'a', 'a', '(', 'x', 'x', 'x', 'x', 'x', 'x', 'x', ')'] ++
        ['(', 'y', 'y', 'y', 'y', 'y', 'y', 'y', 'y', 'y', 'y', 'y', 'y', 'y', 'y',
          'y', 'y', 'y', 'y', 'y', 'y', 'y', 'y', 'y', 'y', 'y', 'y', ')']) 11 =
        Res.overrun 40 40 := by
  decide

/-- C18. `expand` terminates on every pattern: after a group or a class the scan resumes
behind an index `j` greater than the index `i` of the opening delimiter and inside the
pattern, the substring that `expand_parens` expands is strictly shorter than the pattern,
and the scan loop run with the bound `plen + 1` on iterations and nested calls never
reaches that bound: it ends with the result of `expand`. -/
theorem C18_expand_terminates (p : List Char) :
    (∀ ret ret1 i j, expand_parens p ret i = some (ret1, j) → i < j ∧ j < p.length) ∧
      (∀ ret ret1 i j, expand_bracket p ret i = some (ret1, j) → i < j ∧ j < p.length) ∧
      (∀ i j, gobble p (i + 1) ')' '(' = some j →
        ((p.drop (i + 1)).take ((j - i + 1) - 2)).length < p.length) ∧
      expandRun (p.length + 1) p 0 [] = Outcome.ofOption (expand p) ∧
      expandRun (p.length + 1) p 0 [] ≠ Outcome.timeout := by
  refine ⟨fun ret ret1 i j h => expand_parens_bounds p ret ret1 i j h,
    fun ret ret1 i j h => expand_bracket_bounds p ret ret1 i j h,
    fun i j h => substring_shorter p i j _ _ h, expandRun_terminates p, ?_⟩
  rw [expandRun_terminates]
  cases expand p <;> simp [Outcome.ofOption]

/-- Witness for C18: the group of `(a)[b]` is closed at index 2, behind index 0. -/
theorem C18_expand_terminates_witness :
    (0 < 2 ∧ 2 < (['(', 'a', ')', '[', 'b', ']'] : List Char).length) ∧
      expandRun 7 ['(', 'a', ')', '[', 'b', ']'] 0 [] ≠ Outcome.timeout :=
  ⟨(C18_expand_terminates ['(', 'a', ')', '[', 'b', ']']).1 [] ['(', 'a', ')'] 0 2
      (by decide),
    (C18_expand_terminates ['(', 'a', ')', '[', 'b', ']']).2.2.2.2⟩

/-- C19 does not hold of the code: on the pattern `[a]` `expand_bracket` allocates the
scratch buffer `subex` with 2 bytes and writes at the indices 0, 1 and 2; the last
write, of the closing `)`, is at an index that is not smaller than the capacity. -/
theorem C19_subex_overrun :
    expand_bracket_writes ['[', 'a', ']'] 0 = some [(0, 2), (1, 2), (2, 2)] ∧
      ¬ (∀ w ∈ [(0, 2), (1, 2), (2, 2)], (w : Nat × Nat).1 < w.2) ∧
      expand ['[', 'a', ']'] = some ['(', 'a', ')'] := by
  decide

end Regex
